import Mathlib

/-!
# Verification of the `kvs` log-structured key-value store (`src/kv.rs`)

Shallow embedding of the storage engine in `src/kv.rs`:

* the on-disk log is modelled as a sequence of Unicode scalar values
  (`Str := List Char`); offsets and sizes count scalars, which coincides
  with the byte counts of the Rust code whenever the content is ASCII and
  is structurally equivalent otherwise (every record is a `\n`-terminated
  line in both views);
* the `serde_json` encoding of the internally tagged `Command` enum
  (`#[serde(tag = "type")]`) is embedded character by character, including
  the JSON string escaping rules `serde_json` applies (`\"`, `\\`,
  `\b`, `\t`, `\n`, `\f`, `\r`, and `\u00XX` for the remaining control
  characters);
* decoding mirrors `serde_json::from_str` restricted to the grammar the
  encoder emits (tag first, fields in declaration order, no interior
  whitespace), plus the trailing-whitespace tolerance of `from_str`;
  this is the exact set of inputs the repository ever produces, and on
  ill-formed lines (the blank lines and corrupt lines the claims are
  about) both the real parser and this one fail;
* the `HashMap<String, u64>` index is modelled as an association list with
  insert-in-place / append-for-fresh-key semantics; its traversal order
  stands for the (arbitrary but fixed during one iteration) traversal
  order of the hash map;
* `File` handles disappear: all reads and writes in `kv.rs` seek to an
  absolute position first (`SeekFrom::Start`/`SeekFrom::End`), so the file
  cursor is never observable and the log content alone is the file state.
-/

set_option maxHeartbeats 1000000

namespace Kvs

/-- Strings are modelled as lists of Unicode scalars. -/
abbrev Str := List Char

/-- The `Command` enum of `kv.rs` (`Write {key, value}` / `Remove {key}`). -/
inductive Command where
  | write (key value : Str)
  | remove (key : Str)
deriving DecidableEq

/-- The key a command refers to. -/
def Command.key : Command → Str
  | .write k _ => k
  | .remove k => k

/-- Errors surfaced by store operations (`failure::Error` values in the
Rust code): a decode failure from `serde_json::from_str`, or the
`"Key not found"` error produced by `remove`. -/
inductive KvError where
  | decodeError
  | keyNotFound
deriving DecidableEq

/-! ## The in-memory index (`HashMap<String, u64>`) -/

/-- The in-memory index: key to byte offset of its latest record. -/
abbrev Index := List (Str × Nat)

/-- `HashMap::get`. -/
def mapLookup : Index → Str → Option Nat
  | [], _ => none
  | (k', p) :: rest, k => if k' = k then some p else mapLookup rest k

/-- `HashMap::insert`: replace the binding in place if the key is present,
otherwise add a fresh binding. -/
def mapInsert : Index → Str → Nat → Index
  | [], k, p => [(k, p)]
  | (k', p') :: rest, k, p =>
    if k' = k then (k, p) :: rest else (k', p') :: mapInsert rest k p

/-- `HashMap::remove`: drop the (unique) binding of the key, if any. -/
def mapRemove : Index → Str → Index
  | [], _ => []
  | (k', p') :: rest, k => if k' = k then rest else (k', p') :: mapRemove rest k

/-! ## Record codec (`serde_json` for `Command`) -/

/-- Lowercase hex digit, as used by `serde_json`'s `\u00XX` escapes. -/
def hexDigit (n : Nat) : Char :=
  if n < 10 then Char.ofNat (48 + n) else Char.ofNat (87 + n)

/-- How `serde_json` serializes one character inside a JSON string. -/
def escChar (c : Char) : Str :=
  if c = '"' then ['\\', '"']
  else if c = '\\' then ['\\', '\\']
  else if c = '\x08' then ['\\', 'b']
  else if c = '\x09' then ['\\', 't']
  else if c = '\x0a' then ['\\', 'n']
  else if c = '\x0c' then ['\\', 'f']
  else if c = '\x0d' then ['\\', 'r']
  else if c.toNat < 32 then
    ['\\', 'u', '0', '0', hexDigit (c.toNat / 16), hexDigit (c.toNat % 16)]
  else [c]

/-- JSON string escaping of a whole string. -/
def escape : Str → Str
  | [] => []
  | c :: rest => escChar c ++ escape rest

/-- Literal skeleton of a serialized `Write` up to the key's opening quote. -/
def litW : Str := String.data "\x7b\"type\":\"Write\",\"key\":\""

/-- Literal skeleton of a serialized `Remove` up to the key's opening quote. -/
def litR : Str := String.data "\x7b\"type\":\"Remove\",\"key\":\""

/-- Literal between the key's closing quote and the value's opening quote. -/
def litM : Str := String.data ",\"value\":\""

/-- `serde_json::to_string` of `Command::Write {key, value}`:
`\x7b"type":"Write","key":"…","value":"…"\x7d`. -/
def encWrite (k v : Str) : Str :=
  litW ++ escape k ++ '"' :: litM ++ escape v ++ '"' :: '\x7d' :: []

/-- `serde_json::to_string` of `Command::Remove {key}`:
`\x7b"type":"Remove","key":"…"\x7d`. -/
def encRemove (k : Str) : Str :=
  litR ++ escape k ++ '"' :: '\x7d' :: []

/-- `serde_json::to_string` of a `Command`. -/
def encodeCmd : Command → Str
  | .write k v => encWrite k v
  | .remove k => encRemove k

/-- Value of one hex digit (JSON `\u` escapes accept either case). -/
def unhex (c : Char) : Option Nat :=
  if '0' ≤ c ∧ c ≤ '9' then some (c.toNat - 48)
  else if 'a' ≤ c ∧ c ≤ 'f' then some (c.toNat - 87)
  else if 'A' ≤ c ∧ c ≤ 'F' then some (c.toNat - 55)
  else none

/-- The single-character JSON escapes. -/
def escShort (e : Char) : Option Char :=
  if e = '"' then some '"'
  else if e = '\\' then some '\\'
  else if e = '/' then some '/'
  else if e = 'b' then some '\x08'
  else if e = 't' then some '\x09'
  else if e = 'n' then some '\x0a'
  else if e = 'f' then some '\x0c'
  else if e = 'r' then some '\x0d'
  else none

/-- JSON string body parser: consumes characters after the opening quote up
to and including the closing quote, returning the decoded content and the
rest of the input.  Raw control characters are rejected, escapes are
decoded; `\uXXXX` surrogates are rejected (the encoder never emits them). -/
def parseStr : Str → Option (Str × Str)
  | [] => none
  | c :: rest =>
    if c = '"' then some ([], rest)
    else if c = '\\' then
      match rest with
      | [] => none
      | e :: rest2 =>
        if e = 'u' then
          match rest2 with
          | h1 :: h2 :: h3 :: h4 :: rest3 =>
            match unhex h1, unhex h2, unhex h3, unhex h4 with
            | some a, some b, some x, some d =>
              let n := ((a * 16 + b) * 16 + x) * 16 + d
              if n < 55296 then
                match parseStr rest3 with
                | some (s, r) => some (Char.ofNat n :: s, r)
                | none => none
              else none
            | _, _, _, _ => none
          | _ => none
        else
          match escShort e with
          | some d =>
            match parseStr rest2 with
            | some (s, r) => some (d :: s, r)
            | none => none
          | none => none
    else if c.toNat < 32 then none
    else
      match parseStr rest with
      | some (s, r) => some (c :: s, r)
      | none => none

/-- Consume an expected literal from the front of the input. -/
def dropLit : Str → Str → Option Str
  | [], s => some s
  | _ :: _, [] => none
  | c :: pre, d :: s => if c = d then dropLit pre s else none

/-- JSON whitespace (what `serde_json::from_str` tolerates after the value). -/
def isWs (c : Char) : Bool :=
  c = ' ' || c = '\x09' || c = '\x0a' || c = '\x0d'

/-- Is the remaining input only trailing whitespace? -/
def allWs : Str → Bool
  | [] => true
  | c :: rest => isWs c && allWs rest

/-- `serde_json::from_str::<Command>` on one buffered line, restricted to
the grammar `encodeCmd` emits (plus trailing whitespace).  Returns `none`
exactly when `from_str` would return `Err`. -/
def decodeCmd (s : Str) : Option Command :=
  match dropLit litW s with
  | some s1 =>
    match parseStr s1 with
    | some (k, s2) =>
      match dropLit litM s2 with
      | some s3 =>
        match parseStr s3 with
        | some (v, s4) =>
          match s4 with
          | '\x7d' :: s5 => if allWs s5 then some (.write k v) else none
          | _ => none
        | none => none
      | none => none
    | none => none
  | none =>
    match dropLit litR s with
    | some s1 =>
      match parseStr s1 with
      | some (k, s2) =>
        match s2 with
        | '\x7d' :: s3 => if allWs s3 then some (.remove k) else none
        | _ => none
      | none => none
    | none => none

/-! ## Log primitives -/

/-- `BufRead::read_line` starting at the head of the remaining input: the
line up to and including the `'\n'`, or everything to end-of-file if no
newline remains. -/
def takeLine : Str → Str
  | [] => []
  | c :: r => if c = '\n' then ['\n'] else c :: takeLine r

/-- `seek(SeekFrom::Start p)` followed by `read_line`. -/
def readLineAt (log : Str) (p : Nat) : Str :=
  takeLine (log.drop p)

/-- The successive buffers `read_line` yields when scanning a file from the
start: maximal `'\n'`-terminated chunks, with a possible unterminated tail. -/
def splitLines : Str → List Str
  | [] => []
  | c :: rest =>
    if c = '\n' then ['\n'] :: splitLines rest
    else
      match splitLines rest with
      | [] => [[c]]
      | l :: ls => (c :: l) :: ls

/-! ## The store (`KvStore`) -/

/-- Observable state of a `KvStore`: the log file content and the index.
(The `File` cursor is unobservable: every access seeks absolutely first.) -/
structure KvState where
  log : Str
  map : Index
deriving DecidableEq

/-- `KvStore::read_record`: seek to `position`, read one line; zero bytes
read means `Ok(None)`; otherwise decode, surfacing decode failures. -/
def read_record (s : KvState) (position : Nat) : Except KvError (Option Command) :=
  let buffer := readLineAt s.log position
  if buffer.length = 0 then .ok none
  else
    match decodeCmd buffer with
    | some c => .ok (some c)
    | none => .error .decodeError

/-- `KvStore::get`: look up the index; on a hit decode the record at that
offset and return its value, treating a non-`Write` record as absent. -/
def get (s : KvState) (key : Str) : Except KvError (Option Str) :=
  match mapLookup s.map key with
  | some position =>
    match read_record s position with
    | .ok (some (.write _ value)) => .ok (some value)
    | .ok _ => .ok none
    | .error e => .error e
  | none => .ok none

/-- First half of `KvStore::write_record`: seek to end-of-file (recording
the append offset), append the serialized command plus `"\n"`, and apply
the command to the in-memory index. -/
def appendRecord (s : KvState) (command : Command) : KvState :=
  { log := s.log ++ encodeCmd command ++ ['\n'],
    map :=
      match command with
      | .write k _ => mapInsert s.map k s.log.length
      | .remove k => mapRemove s.map k }

/-- Body of the `for (_, position) in &self.map` loop of
`KvStore::compact_log`: for each index entry read the line at its offset
from the old log, push one `'\n'`, and append the buffer to the new file. -/
def compactLogGo : Index → Str → Str
  | [], _ => []
  | (_, p) :: rest, old => (readLineAt old p ++ ['\n']) ++ compactLogGo rest old

/-- `KvStore::compact_log`: rewrite the log to the records the index points
at (in index-traversal order) and atomically rename it over the old file.
The index itself is not modified here. -/
def compact_log (s : KvState) : KvState :=
  { s with log := compactLogGo s.map s.log }

/-- The loop of `KvStore::create_map`, expressed over the line buffers
`read_line` yields: each line that decodes as a command updates the index
(`Write` inserts the line's start offset, `Remove` erases the key) and a
line that fails to decode is skipped (`Err(_) => continue`). -/
def replayLines : List Str → Nat → Index → Index
  | [], _, m => m
  | l :: ls, position, m =>
    let m' :=
      match decodeCmd l with
      | some (.write k _) => mapInsert m k position
      | some (.remove k) => mapRemove m k
      | none => m
    replayLines ls (position + l.length) m'

/-- `KvStore::create_map`: replay the whole log from offset 0 into the
existing index (the Rust code does not clear `self.map` first). -/
def create_map (s : KvState) : KvState :=
  { s with map := replayLines (splitLines s.log) 0 s.map }

/-- `KvStore::write_record`: append and index the command, then
`compact_log`, then `create_map`. -/
def write_record (s : KvState) (command : Command) : KvState :=
  create_map (compact_log (appendRecord s command))

/-- `KvStore::set`. -/
def set (s : KvState) (key value : Str) : KvState :=
  write_record s (.write key value)

/-- `KvStore::remove`: check presence via `get`; on a hit append a
`Remove` record, otherwise fail with `KeyNotFound` leaving the state as
it was. -/
def remove (s : KvState) (key : Str) : Except KvError Unit × KvState :=
  match get s key with
  | .error e => (.error e, s)
  | .ok (some _) => (.ok (), write_record s (.remove key))
  | .ok none => (.error .keyNotFound, s)

/-- `KvStore::open` over a directory whose `db.json` currently holds
`log` (a fresh directory gives `log = []`): open/create the file and
rebuild the index by full replay into an empty map. -/
def openStore (log : Str) : KvState :=
  create_map { log := log, map := [] }

/-- One public store operation. -/
inductive Op where
  | set (key value : Str)
  | get (key : Str)
  | rm (key : Str)

/-- State transition of one operation.  `get` borrows `&mut self` but
performs no write to the log or the index, so it leaves the state as is. -/
def runOp (s : KvState) : Op → KvState
  | .set k v => set s k v
  | .get _ => s
  | .rm k => (remove s k).2

/-- States a single `KvStore` instance can reach: a store opened on a
fresh directory, any sequence of operations, and reopening over the log
a reachable instance left behind. -/
inductive Reachable : KvState → Prop
  | openFresh : Reachable (openStore [])
  | step {s : KvState} (op : Op) : Reachable s → Reachable (runOp s op)
  | reopen {s : KvState} : Reachable s → Reachable (openStore s.log)

/-! ## Codec lemmas -/

theorem unhex_hexDigit : ∀ n, n < 16 → unhex (hexDigit n) = some n := by decide

theorem hexDigit_ne_nl : ∀ n, n < 16 → hexDigit n ≠ '\n' := by decide

theorem nl_not_mem_litW : '\n' ∉ litW := by decide

theorem nl_not_mem_litR : '\n' ∉ litR := by decide

theorem nl_not_mem_litM : '\n' ∉ litM := by decide

theorem escChar_control (c : Char) (hq : c ≠ '"') (hbs : c ≠ '\\') (h3 : c ≠ '\x08')
    (h4 : c ≠ '\x09') (h5 : c ≠ '\x0a') (h6 : c ≠ '\x0c') (h7 : c ≠ '\x0d')
    (h8 : c.toNat < 32) :
    escChar c = ['\\', 'u', '0', '0', hexDigit (c.toNat / 16), hexDigit (c.toNat % 16)] := by
  unfold escChar
  rw [if_neg hq, if_neg hbs, if_neg h3, if_neg h4, if_neg h5, if_neg h6, if_neg h7,
    if_pos h8]

theorem escChar_plain (c : Char) (hq : c ≠ '"') (hbs : c ≠ '\\')
    (h8 : ¬ c.toNat < 32) : escChar c = [c] := by
  have h3 : c ≠ '\x08' := fun h => h8 (by rw [h]; decide)
  have h4 : c ≠ '\x09' := fun h => h8 (by rw [h]; decide)
  have h5 : c ≠ '\x0a' := fun h => h8 (by rw [h]; decide)
  have h6 : c ≠ '\x0c' := fun h => h8 (by rw [h]; decide)
  have h7 : c ≠ '\x0d' := fun h => h8 (by rw [h]; decide)
  unfold escChar
  rw [if_neg hq, if_neg hbs, if_neg h3, if_neg h4, if_neg h5, if_neg h6, if_neg h7,
    if_neg h8]

theorem nl_not_mem_escChar (c : Char) : '\n' ∉ escChar c := by
  by_cases hq : c = '"'
  · rw [hq]; decide
  by_cases hbs : c = '\\'
  · rw [hbs]; decide
  by_cases h3 : c = '\x08'
  · rw [h3]; decide
  by_cases h4 : c = '\x09'
  · rw [h4]; decide
  by_cases h5 : c = '\x0a'
  · rw [h5]; decide
  by_cases h6 : c = '\x0c'
  · rw [h6]; decide
  by_cases h7 : c = '\x0d'
  · rw [h7]; decide
  by_cases h8 : c.toNat < 32
  · rw [escChar_control c hq hbs h3 h4 h5 h6 h7 h8]
    intro hmem
    simp only [List.mem_cons, List.not_mem_nil, or_false] at hmem
    rcases hmem with h | h | h | h | h | h
    · exact absurd h (by decide)
    · exact absurd h (by decide)
    · exact absurd h (by decide)
    · exact absurd h (by decide)
    · exact hexDigit_ne_nl _ (Nat.div_lt_of_lt_mul (by omega)) h.symm
    · exact hexDigit_ne_nl _ (Nat.mod_lt _ (by omega)) h.symm
  · rw [escChar_plain c hq hbs h8]
    intro hmem
    simp only [List.mem_singleton] at hmem
    exact h5 hmem.symm

theorem nl_not_mem_escape (s : Str) : '\n' ∉ escape s := by
  induction s with
  | nil => simp [escape]
  | cons c rest ih =>
    simp only [escape, List.mem_append]
    rintro (h | h)
    · exact nl_not_mem_escChar c h
    · exact ih h

theorem nl_not_mem_encWrite (k v : Str) : '\n' ∉ encWrite k v := by
  intro h
  unfold encWrite at h
  rcases List.mem_append.1 h with h | h
  · rcases List.mem_append.1 h with h | h
    · rcases List.mem_append.1 h with h | h
      · rcases List.mem_append.1 h with h | h
        · exact nl_not_mem_litW h
        · exact nl_not_mem_escape k h
      · rcases List.mem_cons.1 h with h | h
        · exact absurd h (by decide)
        · exact nl_not_mem_litM h
    · exact nl_not_mem_escape v h
  · revert h; decide

theorem nl_not_mem_encRemove (k : Str) : '\n' ∉ encRemove k := by
  intro h
  unfold encRemove at h
  rcases List.mem_append.1 h with h | h
  · rcases List.mem_append.1 h with h | h
    · exact nl_not_mem_litR h
    · exact nl_not_mem_escape k h
  · revert h; decide

theorem nl_not_mem_encodeCmd (c : Command) : '\n' ∉ encodeCmd c := by
  cases c with
  | write k v => exact nl_not_mem_encWrite k v
  | remove k => exact nl_not_mem_encRemove k

theorem parseStr_quote (rest : Str) : parseStr ('"' :: rest) = some ([], rest) := by
  rw [parseStr.eq_def]; simp

theorem parseStr_short (e d : Char) (rest : Str) (hu : e ≠ 'u')
    (he : escShort e = some d) :
    parseStr ('\\' :: e :: rest) =
      match parseStr rest with
      | some (s, r) => some (d :: s, r)
      | none => none := by
  conv_lhs => rw [parseStr.eq_def]
  simp [hu, he]

theorem parseStr_u (h1 h2 h3 h4 : Char) (rest : Str) (a b x d : Nat)
    (ha : unhex h1 = some a) (hb : unhex h2 = some b)
    (hx : unhex h3 = some x) (hd : unhex h4 = some d)
    (hlt : ((a * 16 + b) * 16 + x) * 16 + d < 55296) :
    parseStr ('\\' :: 'u' :: h1 :: h2 :: h3 :: h4 :: rest) =
      match parseStr rest with
      | some (s, r) => some (Char.ofNat (((a * 16 + b) * 16 + x) * 16 + d) :: s, r)
      | none => none := by
  conv_lhs => rw [parseStr.eq_def]
  simp [ha, hb, hx, hd, hlt]

theorem parseStr_plain (c : Char) (rest : Str) (h1 : c ≠ '"') (h2 : c ≠ '\\')
    (h3 : ¬ c.toNat < 32) :
    parseStr (c :: rest) =
      match parseStr rest with
      | some (s, r) => some (c :: s, r)
      | none => none := by
  conv_lhs => rw [parseStr.eq_def]
  simp [h1, h2, h3]

theorem parseStr_escape : ∀ (v rest : Str),
    parseStr (escape v ++ '"' :: rest) = some (v, rest)
  | [], rest => by
    show parseStr ('"' :: rest) = some ([], rest)
    exact parseStr_quote rest
  | c :: v, rest => by
    have ih := parseStr_escape v rest
    show parseStr ((escChar c ++ escape v) ++ '"' :: rest) = _
    rw [List.append_assoc]
    by_cases hq : c = '"'
    · subst hq
      show parseStr ('\\' :: '"' :: (escape v ++ '"' :: rest)) = _
      rw [parseStr_short '"' '"' _ (by decide) (by decide), ih]
    by_cases hbs : c = '\\'
    · subst hbs
      show parseStr ('\\' :: '\\' :: (escape v ++ '"' :: rest)) = _
      rw [parseStr_short '\\' '\\' _ (by decide) (by decide), ih]
    by_cases h3 : c = '\x08'
    · subst h3
      show parseStr ('\\' :: 'b' :: (escape v ++ '"' :: rest)) = _
      rw [parseStr_short 'b' '\x08' _ (by decide) (by decide), ih]
    by_cases h4 : c = '\x09'
    · subst h4
      show parseStr ('\\' :: 't' :: (escape v ++ '"' :: rest)) = _
      rw [parseStr_short 't' '\x09' _ (by decide) (by decide), ih]
    by_cases h5 : c = '\x0a'
    · subst h5
      show parseStr ('\\' :: 'n' :: (escape v ++ '"' :: rest)) = _
      rw [parseStr_short 'n' '\x0a' _ (by decide) (by decide), ih]
    by_cases h6 : c = '\x0c'
    · subst h6
      show parseStr ('\\' :: 'f' :: (escape v ++ '"' :: rest)) = _
      rw [parseStr_short 'f' '\x0c' _ (by decide) (by decide), ih]
    by_cases h7 : c = '\x0d'
    · subst h7
      show parseStr ('\\' :: 'r' :: (escape v ++ '"' :: rest)) = _
      rw [parseStr_short 'r' '\x0d' _ (by decide) (by decide), ih]
    by_cases h8 : c.toNat < 32
    · rw [escChar_control c hq hbs h3 h4 h5 h6 h7 h8]
      show parseStr ('\\' :: 'u' :: '0' :: '0' :: hexDigit (c.toNat / 16) ::
        hexDigit (c.toNat % 16) :: (escape v ++ '"' :: rest)) = _
      have hdiv : c.toNat / 16 < 16 := Nat.div_lt_of_lt_mul (by omega)
      have hmod : c.toNat % 16 < 16 := Nat.mod_lt _ (by omega)
      rw [parseStr_u _ _ _ _ _ 0 0 (c.toNat / 16) (c.toNat % 16) (by decide) (by decide)
        (unhex_hexDigit _ hdiv) (unhex_hexDigit _ hmod) (by omega), ih]
      have hn : ((0 * 16 + 0) * 16 + c.toNat / 16) * 16 + c.toNat % 16 = c.toNat := by
        omega
      rw [hn, Char.ofNat_toNat]
    · rw [escChar_plain c hq hbs h8]
      show parseStr (c :: (escape v ++ '"' :: rest)) = _
      rw [parseStr_plain c _ hq hbs h8, ih]

theorem dropLit_self : ∀ (p s : Str), dropLit p (p ++ s) = some s
  | [], s => rfl
  | c :: p, s => by simp [dropLit, dropLit_self p s]

theorem dropLit_litW_litR (s : Str) : dropLit litW (litR ++ s) = none := rfl

theorem decode_encWrite (k v : Str) :
    decodeCmd (encWrite k v ++ ['\n']) = some (.write k v) := by
  unfold decodeCmd encWrite
  simp only [List.append_assoc, List.cons_append, List.nil_append]
  simp [dropLit_self, parseStr_escape, allWs, isWs]

theorem decode_encRemove (k : Str) :
    decodeCmd (encRemove k ++ ['\n']) = some (.remove k) := by
  unfold decodeCmd encRemove
  simp only [List.append_assoc, List.cons_append, List.nil_append]
  simp [dropLit_litW_litR, dropLit_self, parseStr_escape, allWs, isWs]

theorem decode_encodeCmd (c : Command) :
    decodeCmd (encodeCmd c ++ ['\n']) = some c := by
  cases c with
  | write k v => exact decode_encWrite k v
  | remove k => exact decode_encRemove k

theorem decode_nl : decodeCmd ['\n'] = none := by decide

/-! ## Line lemmas -/

theorem takeLine_nl (r : Str) : takeLine ('\n' :: r) = ['\n'] := by
  simp [takeLine]

theorem takeLine_append (A r : Str) (h : '\n' ∉ A) :
    takeLine (A ++ '\n' :: r) = A ++ ['\n'] := by
  induction A with
  | nil => simp [takeLine]
  | cons c A ih =>
    have hc : c ≠ '\n' := fun hc => h (hc ▸ List.mem_cons_self c A)
    have ih' := ih (fun hm => h (List.mem_cons_of_mem c hm))
    simp only [List.cons_append, takeLine, if_neg hc, List.append_eq, ih']

theorem splitLines_append (A r : Str) (hA : '\n' ∉ A) :
    splitLines (A ++ '\n' :: r) = (A ++ ['\n']) :: splitLines r := by
  induction A with
  | nil => simp [splitLines]
  | cons c A ih =>
    have hc : c ≠ '\n' := fun hc => hA (hc ▸ List.mem_cons_self c A)
    have ih' := ih (fun hm => hA (List.mem_cons_of_mem c hm))
    simp only [List.cons_append, splitLines, if_neg hc, List.append_eq, ih']

theorem drop_append_len (A B : Str) (n : Nat) :
    (A ++ B).drop (A.length + n) = B.drop n := by
  induction A with
  | nil => simp
  | cons c A ih =>
    have h : (c :: A).length + n = (A.length + n) + 1 := by
      simp [List.length_cons]; omega
    rw [h, List.cons_append, List.drop_succ_cons, ih]

theorem readLineAt_shift (pre rest : Str) (n : Nat) :
    readLineAt (pre ++ rest) (pre.length + n) = readLineAt rest n := by
  unfold readLineAt
  rw [drop_append_len]

theorem readLineAt_append (pre rest : Str) :
    readLineAt (pre ++ rest) pre.length = takeLine rest := by
  have h := readLineAt_shift pre rest 0
  simp only [Nat.add_zero] at h
  rw [h]
  simp [readLineAt]

/-! ## Canonical (fully compacted) states

After every mutation `write_record` compacts the log and rebuilds the
index from it, so every reachable state of the store is, up to the list
of live `(key, value)` entries, of the canonical form below. -/

/-- The logical content of the store: live key/value pairs in log order. -/
abbrev Entries := List (Str × Str)

/-- The keys of an entries list. -/
def keysOf (es : Entries) : List Str := es.map Prod.fst

/-- The keys of an index. -/
def keysOfI (m : Index) : List Str := m.map Prod.fst

/-- Logical lookup among the entries. -/
def lookupE : Entries → Str → Option Str
  | [], _ => none
  | (k', v) :: es, k => if k' = k then some v else lookupE es k

/-- Logical effect of `set k v` on the entries. -/
def upsert : Entries → Str → Str → Entries
  | [], k, v => [(k, v)]
  | (k', v') :: es, k, v =>
    if k' = k then (k, v) :: es else (k', v') :: upsert es k v

/-- Logical effect of a successful `remove k` on the entries. -/
def eraseKey : Entries → Str → Entries
  | [], _ => []
  | (k', v') :: es, k => if k' = k then es else (k', v') :: eraseKey es k

/-- One record of a fully compacted log: the serialized `Write` with its
`'\n'` terminator, followed by the extra blank line `compact_log` emits
(it pushes one more `"\n"` onto a buffer `read_line` already terminated). -/
def compLine (k v : Str) : Str := encWrite k v ++ ['\n', '\n']

/-- A fully compacted log holding the given entries, in order. -/
def canonLog : Entries → Str
  | [] => []
  | (k, v) :: es => compLine k v ++ canonLog es

/-- The index matching `canonLog`, offsets starting at a base offset. -/
def canonMap : Entries → Nat → Index
  | [], _ => []
  | (k, v) :: es, off => (k, off) :: canonMap es (off + (compLine k v).length)

/-- The store state a mutation leaves behind: the compacted log together
with the index rebuilt over it. -/
def canonState (es : Entries) : KvState :=
  { log := canonLog es, map := canonMap es 0 }

/-- Well-formed entries: at most one binding per key. -/
def EntriesOK (es : Entries) : Prop := (keysOf es).Nodup

/-- Offset of a key's record inside a compacted log starting at `off`. -/
def entryOff : Entries → Nat → Str → Option Nat
  | [], _, _ => none
  | (k', v') :: es, off, k =>
    if k' = k then some off else entryOff es (off + (compLine k' v').length) k

/-- The lines `read_line` yields over a compacted log: each record line
followed by the blank line after it. -/
def linesOf : Entries → List Str
  | [] => []
  | (k, v) :: es => (encWrite k v ++ ['\n']) :: ['\n'] :: linesOf es

/-- Net effect of replaying a compacted log on an index: insert every
entry's key at its record offset, in order. -/
def insAll : Entries → Nat → Index → Index
  | [], _, m => m
  | (k, v) :: es, off, m => insAll es (off + (compLine k v).length) (mapInsert m k off)

/-! ## Index lemmas -/

theorem mapLookup_insert_self (m : Index) (k : Str) (p : Nat) :
    mapLookup (mapInsert m k p) k = some p := by
  induction m with
  | nil => simp [mapInsert, mapLookup]
  | cons e m ih =>
    obtain ⟨k', p'⟩ := e
    by_cases h : k' = k
    · simp [mapInsert, mapLookup, h]
    · simp [mapInsert, mapLookup, h, ih]

theorem mapLookup_insert_ne (m : Index) (k k' : Str) (p : Nat) (h : k ≠ k') :
    mapLookup (mapInsert m k p) k' = mapLookup m k' := by
  induction m with
  | nil => simp [mapInsert, mapLookup, h]
  | cons e m ih =>
    obtain ⟨k2, p2⟩ := e
    by_cases h2 : k2 = k
    · subst h2; simp [mapInsert, mapLookup, h]
    · simp [mapInsert, mapLookup, h2, ih]

theorem mapLookup_remove_self (m : Index) (k : Str) (hnd : (keysOfI m).Nodup) :
    mapLookup (mapRemove m k) k = none := by
  induction m with
  | nil => simp [mapRemove, mapLookup]
  | cons e m ih =>
    obtain ⟨k', p'⟩ := e
    simp only [keysOfI, List.map_cons, List.nodup_cons] at hnd
    by_cases h : k' = k
    · subst h
      simp only [mapRemove, if_pos rfl]
      -- k' is not among the remaining keys, so the lookup misses
      clear ih
      induction m with
      | nil => simp [mapLookup]
      | cons e2 m2 ih2 =>
        obtain ⟨k2, p2⟩ := e2
        simp only [List.map_cons, List.mem_cons, not_or] at hnd
        have hk2 : k2 ≠ k' := fun h => hnd.1.1 h.symm
        simp only [mapLookup, if_neg hk2]
        exact ih2 ⟨hnd.1.2, hnd.2.of_cons⟩
    · simp only [mapRemove, if_neg h, mapLookup, if_neg h]
      exact ih hnd.2

theorem mapLookup_remove_ne (m : Index) (k k' : Str) (h : k ≠ k') :
    mapLookup (mapRemove m k) k' = mapLookup m k' := by
  induction m with
  | nil => simp [mapRemove, mapLookup]
  | cons e m ih =>
    obtain ⟨k2, p2⟩ := e
    by_cases h2 : k2 = k
    · subst h2
      simp [mapRemove, mapLookup, h]
    · simp [mapRemove, mapLookup, h2, ih]

theorem mapInsert_fresh (m : Index) (k : Str) (p : Nat) (h : k ∉ keysOfI m) :
    mapInsert m k p = m ++ [(k, p)] := by
  induction m with
  | nil => simp [mapInsert]
  | cons e m ih =>
    obtain ⟨k', p'⟩ := e
    simp only [keysOfI, List.map_cons, List.mem_cons, not_or] at h
    have hk : k' ≠ k := fun hk => h.1 hk.symm
    simp only [mapInsert, if_neg hk, List.cons_append, List.cons.injEq, true_and]
    exact ih h.2

theorem mapInsert_append_left (done m : Index) (k : Str) (p : Nat)
    (h : k ∉ keysOfI done) :
    mapInsert (done ++ m) k p = done ++ mapInsert m k p := by
  induction done with
  | nil => simp
  | cons e d ih =>
    obtain ⟨k', p'⟩ := e
    simp only [keysOfI, List.map_cons, List.mem_cons, not_or] at h
    have hk : k' ≠ k := fun hk => h.1 hk.symm
    simp only [List.cons_append, mapInsert, if_neg hk, List.cons.injEq, true_and]
    exact ih h.2

theorem keysOfI_canonMap (es : Entries) (off : Nat) :
    keysOfI (canonMap es off) = keysOf es := by
  induction es generalizing off with
  | nil => simp [canonMap, keysOfI, keysOf]
  | cons e es ih =>
    obtain ⟨k, v⟩ := e
    simp [canonMap, keysOfI, keysOf] at ih ⊢
    exact ih _

theorem mapLookup_canonMap (es : Entries) (off : Nat) (k : Str) :
    mapLookup (canonMap es off) k = entryOff es off k := by
  induction es generalizing off with
  | nil => simp [canonMap, mapLookup, entryOff]
  | cons e es ih =>
    obtain ⟨k', v'⟩ := e
    by_cases h : k' = k
    · simp [canonMap, mapLookup, entryOff, h]
    · simp [canonMap, mapLookup, entryOff, h, ih]

theorem entryOff_none (es : Entries) (off : Nat) (k : Str)
    (h : entryOff es off k = none) : lookupE es k = none := by
  induction es generalizing off with
  | nil => simp [lookupE]
  | cons e es ih =>
    obtain ⟨k', v'⟩ := e
    by_cases hk : k' = k
    · simp [entryOff, hk] at h
    · simp only [entryOff, if_neg hk] at h
      simp only [lookupE, if_neg hk]
      exact ih _ h

/-! ## Reading records of a compacted log -/

theorem takeLine_compLine (k v : Str) (rest : Str) :
    takeLine (compLine k v ++ rest) = encWrite k v ++ ['\n'] := by
  unfold compLine
  have h : encWrite k v ++ ['\n', '\n'] ++ rest = encWrite k v ++ '\n' :: ('\n' :: rest) := by
    simp
  rw [h, takeLine_append _ _ (nl_not_mem_encWrite k v)]

theorem readLineAt_entryOff (es : Entries) (pre tail : Str) (k : Str) (p : Nat)
    (h : entryOff es pre.length k = some p) :
    ∃ v, lookupE es k = some v ∧
      readLineAt (pre ++ (canonLog es ++ tail)) p = encWrite k v ++ ['\n'] := by
  induction es generalizing pre with
  | nil => simp [entryOff] at h
  | cons e es ih =>
    obtain ⟨k', v'⟩ := e
    by_cases hk : k' = k
    · subst hk
      simp [entryOff] at h
      subst h
      refine ⟨v', by simp [lookupE], ?_⟩
      show readLineAt (pre ++ (compLine k' v' ++ canonLog es ++ tail)) pre.length = _
      rw [List.append_assoc, readLineAt_append, takeLine_compLine]
    · simp only [entryOff, if_neg hk] at h
      have h' : entryOff es (pre ++ compLine k' v').length k = some p := by
        simpa [List.length_append] using h
      obtain ⟨v, hv, hr⟩ := ih (pre ++ compLine k' v') h'
      refine ⟨v, by simpa [lookupE, if_neg hk] using hv, ?_⟩
      show readLineAt (pre ++ (compLine k' v' ++ canonLog es ++ tail)) p = _
      have hshape : pre ++ (compLine k' v' ++ canonLog es ++ tail)
          = (pre ++ compLine k' v') ++ (canonLog es ++ tail) := by
        simp
      rw [hshape]
      exact hr

theorem get_canon_general (es : Entries) (pre tail : Str) (k : Str) :
    get { log := pre ++ (canonLog es ++ tail), map := canonMap es pre.length } k
      = .ok (lookupE es k) := by
  unfold get
  show (match mapLookup (canonMap es pre.length) k with
    | some position => _
    | none => _) = _
  rw [mapLookup_canonMap]
  cases hoff : entryOff es pre.length k with
  | none => rw [entryOff_none es _ k hoff]
  | some p =>
    obtain ⟨v, hv, hr⟩ := readLineAt_entryOff es pre tail k p hoff
    unfold read_record
    show (match (if (readLineAt (pre ++ (canonLog es ++ tail)) p).length = 0
        then Except.ok none
        else _ : Except KvError (Option Command)) with
      | .ok (some (.write _ value)) => Except.ok (some value)
      | .ok _ => .ok none
      | .error e => .error e) = _
    rw [hr, hv]
    have hlen : (encWrite k v ++ ['\n']).length ≠ 0 := by
      simp [List.length_append]
    rw [if_neg hlen, decode_encWrite]

/-! ## Compaction over a canonical log -/

theorem readLineAt_canon_end (pre tail : Str) (k v : Str) :
    readLineAt (pre ++ (encWrite k v ++ '\n' :: tail)) pre.length
      = encWrite k v ++ ['\n'] := by
  rw [readLineAt_append, takeLine_append _ _ (nl_not_mem_encWrite k v)]

theorem compactLogGo_canon (es : Entries) (pre tail : Str) :
    compactLogGo (canonMap es pre.length) (pre ++ (canonLog es ++ tail))
      = canonLog es := by
  induction es generalizing pre with
  | nil => simp [canonMap, compactLogGo, canonLog]
  | cons e es ih =>
    obtain ⟨k, v⟩ := e
    show compactLogGo ((k, pre.length) :: canonMap es (pre.length + (compLine k v).length))
      (pre ++ ((compLine k v ++ canonLog es) ++ tail)) = compLine k v ++ canonLog es
    have hshape : pre ++ ((compLine k v ++ canonLog es) ++ tail)
        = (pre ++ compLine k v) ++ (canonLog es ++ tail) := by simp
    have hlen : pre.length + (compLine k v).length = (pre ++ compLine k v).length := by
      simp
    simp only [compactLogGo, hshape, hlen]
    rw [ih (pre ++ compLine k v)]
    have hread : readLineAt ((pre ++ compLine k v) ++ (canonLog es ++ tail)) pre.length
        = encWrite k v ++ ['\n'] := by
      have h2 : (pre ++ compLine k v) ++ (canonLog es ++ tail)
          = pre ++ (encWrite k v ++ '\n' :: ('\n' :: (canonLog es ++ tail))) := by
        simp [compLine]
      rw [h2, readLineAt_canon_end]
    rw [hread]
    simp [compLine]

theorem compact_upsert (es : Entries) (pre : Str) (k v : Str) :
    compactLogGo (mapInsert (canonMap es pre.length) k (pre ++ canonLog es).length)
      (pre ++ (canonLog es ++ (encWrite k v ++ ['\n'])))
    = canonLog (upsert es k v) := by
  induction es generalizing pre with
  | nil =>
    show compactLogGo [(k, (pre ++ canonLog []).length)]
      (pre ++ (canonLog [] ++ (encWrite k v ++ ['\n']))) = _
    simp only [canonLog, List.append_nil, List.nil_append, compactLogGo, upsert]
    rw [readLineAt_canon_end]
    simp [compLine]
  | cons e es ih =>
    obtain ⟨k', v'⟩ := e
    by_cases hk : k' = k
    · subst hk
      show compactLogGo
        (mapInsert ((k', pre.length) :: canonMap es (pre.length + (compLine k' v').length))
          k' (pre ++ canonLog ((k', v') :: es)).length)
        (pre ++ (canonLog ((k', v') :: es) ++ (encWrite k' v ++ ['\n'])))
        = canonLog (upsert ((k', v') :: es) k' v)
      simp only [mapInsert, if_pos rfl, if_true, compactLogGo, upsert, canonLog]
      have hshape : pre ++ ((compLine k' v' ++ canonLog es) ++ (encWrite k' v ++ ['\n']))
          = (pre ++ compLine k' v') ++ (canonLog es ++ (encWrite k' v ++ ['\n'])) := by
        simp
      have hlen : pre.length + (compLine k' v').length = (pre ++ compLine k' v').length := by
        simp
      rw [hshape, hlen, compactLogGo_canon es (pre ++ compLine k' v') _]
      have hread : readLineAt ((pre ++ compLine k' v') ++ (canonLog es ++ (encWrite k' v ++ ['\n'])))
          (pre ++ compLine k' v' ++ canonLog es).length = encWrite k' v ++ ['\n'] := by
        have h2 : (pre ++ compLine k' v') ++ (canonLog es ++ (encWrite k' v ++ ['\n']))
            = ((pre ++ compLine k' v') ++ canonLog es) ++ (encWrite k' v ++ '\n' :: []) := by
          simp
        have h3 : (pre ++ compLine k' v' ++ canonLog es).length
            = ((pre ++ compLine k' v') ++ canonLog es).length := by simp
        rw [h2, h3, readLineAt_canon_end]
      have h4 : (pre ++ (compLine k' v' ++ canonLog es)).length
          = (pre ++ compLine k' v' ++ canonLog es).length := by simp
      rw [h4, hread]
      simp [compLine]
    · show compactLogGo
        (mapInsert ((k', pre.length) :: canonMap es (pre.length + (compLine k' v').length))
          k (pre ++ canonLog ((k', v') :: es)).length)
        (pre ++ (canonLog ((k', v') :: es) ++ (encWrite k v ++ ['\n'])))
        = canonLog (upsert ((k', v') :: es) k v)
      simp only [mapInsert, if_neg hk, compactLogGo, upsert, canonLog]
      have hshape : pre ++ ((compLine k' v' ++ canonLog es) ++ (encWrite k v ++ ['\n']))
          = (pre ++ compLine k' v') ++ (canonLog es ++ (encWrite k v ++ ['\n'])) := by
        simp
      have hlen : pre.length + (compLine k' v').length = (pre ++ compLine k' v').length := by
        simp
      have hL : (pre ++ (compLine k' v' ++ canonLog es)).length
          = ((pre ++ compLine k' v') ++ canonLog es).length := by simp
      rw [hshape, hlen, hL]
      have ih' := ih (pre ++ compLine k' v')
      rw [ih']
      have hread : readLineAt ((pre ++ compLine k' v') ++ (canonLog es ++ (encWrite k v ++ ['\n'])))
          pre.length = encWrite k' v' ++ ['\n'] := by
        have h2 : (pre ++ compLine k' v') ++ (canonLog es ++ (encWrite k v ++ ['\n']))
            = pre ++ (encWrite k' v' ++ '\n' :: ('\n' :: (canonLog es ++ (encWrite k v ++ ['\n'])))) := by
          simp [compLine]
        rw [h2, readLineAt_canon_end]
      rw [hread]
      simp [compLine]

theorem compact_erase (es : Entries) (pre : Str) (k : Str) (tail : Str) :
    compactLogGo (mapRemove (canonMap es pre.length) k)
      (pre ++ (canonLog es ++ tail))
    = canonLog (eraseKey es k) := by
  induction es generalizing pre with
  | nil => simp [canonMap, mapRemove, compactLogGo, eraseKey, canonLog]
  | cons e es ih =>
    obtain ⟨k', v'⟩ := e
    by_cases hk : k' = k
    · subst hk
      show compactLogGo
        (mapRemove ((k', pre.length) :: canonMap es (pre.length + (compLine k' v').length)) k')
        (pre ++ (canonLog ((k', v') :: es) ++ tail)) = canonLog (eraseKey ((k', v') :: es) k')
      simp only [mapRemove, if_pos rfl, if_true, eraseKey, canonLog]
      have hshape : pre ++ ((compLine k' v' ++ canonLog es) ++ tail)
          = (pre ++ compLine k' v') ++ (canonLog es ++ tail) := by simp
      have hlen : pre.length + (compLine k' v').length = (pre ++ compLine k' v').length := by
        simp
      rw [hshape, hlen, compactLogGo_canon es (pre ++ compLine k' v') tail]
    · show compactLogGo
        (mapRemove ((k', pre.length) :: canonMap es (pre.length + (compLine k' v').length)) k)
        (pre ++ (canonLog ((k', v') :: es) ++ tail)) = canonLog (eraseKey ((k', v') :: es) k)
      simp only [mapRemove, if_neg hk, compactLogGo, eraseKey, canonLog]
      have hshape : pre ++ ((compLine k' v' ++ canonLog es) ++ tail)
          = (pre ++ compLine k' v') ++ (canonLog es ++ tail) := by simp
      have hlen : pre.length + (compLine k' v').length = (pre ++ compLine k' v').length := by
        simp
      rw [hshape, hlen, ih (pre ++ compLine k' v')]
      have hread : readLineAt ((pre ++ compLine k' v') ++ (canonLog es ++ tail)) pre.length
          = encWrite k' v' ++ ['\n'] := by
        have h2 : (pre ++ compLine k' v') ++ (canonLog es ++ tail)
            = pre ++ (encWrite k' v' ++ '\n' :: ('\n' :: (canonLog es ++ tail))) := by
          simp [compLine]
        rw [h2, readLineAt_canon_end]
      rw [hread]
      simp [compLine]

/-! ## Replaying a compacted log -/

theorem splitLines_canonLog : ∀ es : Entries, splitLines (canonLog es) = linesOf es
  | [] => rfl
  | (k, v) :: es => by
    show splitLines (compLine k v ++ canonLog es) = _
    have h : compLine k v ++ canonLog es
        = encWrite k v ++ '\n' :: ('\n' :: canonLog es) := by
      simp [compLine]
    rw [h, splitLines_append _ _ (nl_not_mem_encWrite k v)]
    rw [show splitLines ('\n' :: canonLog es) = ['\n'] :: splitLines (canonLog es) by
      simp [splitLines]]
    rw [splitLines_canonLog es]
    rfl

theorem replayLines_linesOf (es : Entries) (off : Nat) (m : Index) :
    replayLines (linesOf es) off m = insAll es off m := by
  induction es generalizing off m with
  | nil => rfl
  | cons e es ih =>
    obtain ⟨k, v⟩ := e
    show replayLines ((encWrite k v ++ ['\n']) :: ['\n'] :: linesOf es) off m = _
    simp only [replayLines, decode_encWrite, decode_nl]
    rw [ih]
    show insAll es (off + (encWrite k v ++ ['\n']).length + (['\n'] : Str).length)
      (mapInsert m k off) = insAll es (off + (compLine k v).length) (mapInsert m k off)
    have harith : off + (encWrite k v ++ ['\n']).length + (['\n'] : Str).length
        = off + (compLine k v).length := by
      simp [compLine]
      omega
    rw [harith]

theorem keysOfI_append (m1 m2 : Index) : keysOfI (m1 ++ m2) = keysOfI m1 ++ keysOfI m2 := by
  simp [keysOfI]

theorem keysOf_nil : keysOf [] = [] := rfl

theorem keysOf_cons (k v : Str) (es : Entries) :
    keysOf ((k, v) :: es) = k :: keysOf es := rfl

theorem keysOfI_nil : keysOfI [] = [] := rfl

theorem keysOfI_cons (k : Str) (p : Nat) (m : Index) :
    keysOfI ((k, p) :: m) = k :: keysOfI m := rfl

theorem insAll_fresh (es : Entries) (off : Nat) (m : Index)
    (hdis : ∀ k ∈ keysOf es, k ∉ keysOfI m) (hnd : (keysOf es).Nodup) :
    insAll es off m = m ++ canonMap es off := by
  induction es generalizing off m with
  | nil => simp [insAll, canonMap]
  | cons e es ih =>
    obtain ⟨k, v⟩ := e
    show insAll es (off + (compLine k v).length) (mapInsert m k off)
      = m ++ (k, off) :: canonMap es (off + (compLine k v).length)
    have hk : k ∉ keysOfI m := hdis k (by simp [keysOf])
    rw [mapInsert_fresh m k off hk]
    simp only [keysOf, List.map_cons, List.nodup_cons] at hnd
    have hdis' : ∀ k' ∈ keysOf es, k' ∉ keysOfI (m ++ [(k, off)]) := by
      intro k' hk'
      rw [keysOfI_append]
      simp only [List.mem_append]
      rintro (hmem | hmem)
      · exact hdis k' (by rw [keysOf_cons]; exact List.mem_cons_of_mem _ hk') hmem
      · simp [keysOfI] at hmem
        exact hnd.1 (hmem ▸ hk')
    rw [ih _ _ hdis' hnd.2]
    simp

theorem insAll_exact (es : Entries) (off : Nat) (done m : Index)
    (hm : keysOfI m = keysOf es)
    (hd : ∀ k ∈ keysOf es, k ∉ keysOfI done)
    (hnd : (keysOf es).Nodup) :
    insAll es off (done ++ m) = done ++ canonMap es off := by
  induction es generalizing off done m with
  | nil =>
    have hnil : m = [] := by
      cases m with
      | nil => rfl
      | cons e m => simp [keysOfI, keysOf] at hm
    subst hnil
    simp [insAll, canonMap]
  | cons e es ih =>
    obtain ⟨k, v⟩ := e
    cases m with
    | nil => simp [keysOfI, keysOf] at hm
    | cons e2 m' =>
      obtain ⟨k2, p2⟩ := e2
      have hkm : k2 = k ∧ keysOfI m' = keysOf es := by
        simpa [keysOfI, keysOf] using hm
      obtain ⟨rfl, hm'⟩ := hkm
      show insAll es (off + (compLine k2 v).length)
        (mapInsert (done ++ (k2, p2) :: m') k2 off)
        = done ++ (k2, off) :: canonMap es (off + (compLine k2 v).length)
      rw [mapInsert_append_left done _ k2 off (hd k2 (by simp [keysOf]))]
      rw [show mapInsert ((k2, p2) :: m') k2 off = (k2, off) :: m' by simp [mapInsert]]
      rw [show done ++ (k2, off) :: m' = (done ++ [(k2, off)]) ++ m' by simp]
      simp only [keysOf, List.map_cons, List.nodup_cons] at hnd
      have hd' : ∀ k' ∈ keysOf es, k' ∉ keysOfI (done ++ [(k2, off)]) := by
        intro k' hk'
        rw [keysOfI_append]
        simp only [List.mem_append]
        rintro (hmem | hmem)
        · exact hd k' (by rw [keysOf_cons]; exact List.mem_cons_of_mem _ hk') hmem
        · simp [keysOfI] at hmem
          exact hnd.1 (hmem ▸ hk')
      rw [ih _ _ _ hm' hd' hnd.2]
      simp

/-! ## The index after a mutation has the keys of the updated entries -/

theorem keysOfI_mapInsert_canon (es : Entries) (off L : Nat) (k v : Str) :
    keysOfI (mapInsert (canonMap es off) k L) = keysOf (upsert es k v) := by
  induction es generalizing off with
  | nil => rfl
  | cons e es ih =>
    obtain ⟨k', v'⟩ := e
    rw [show canonMap ((k', v') :: es) off
      = (k', off) :: canonMap es (off + (compLine k' v').length) from rfl]
    by_cases h : k' = k
    · subst h
      rw [show mapInsert ((k', off) :: canonMap es (off + (compLine k' v').length)) k' L
        = (k', L) :: canonMap es (off + (compLine k' v').length) by simp [mapInsert]]
      rw [keysOfI_cons, keysOfI_canonMap]
      rw [show upsert ((k', v') :: es) k' v = (k', v) :: es by simp [upsert], keysOf_cons]
    · rw [show mapInsert ((k', off) :: canonMap es (off + (compLine k' v').length)) k L
        = (k', off) :: mapInsert (canonMap es (off + (compLine k' v').length)) k L by
        simp [mapInsert, h]]
      rw [keysOfI_cons, ih]
      rw [show upsert ((k', v') :: es) k v = (k', v') :: upsert es k v by
        simp [upsert, h], keysOf_cons]

theorem keysOfI_mapRemove_canon (es : Entries) (off : Nat) (k : Str) :
    keysOfI (mapRemove (canonMap es off) k) = keysOf (eraseKey es k) := by
  induction es generalizing off with
  | nil => rfl
  | cons e es ih =>
    obtain ⟨k', v'⟩ := e
    rw [show canonMap ((k', v') :: es) off
      = (k', off) :: canonMap es (off + (compLine k' v').length) from rfl]
    by_cases h : k' = k
    · subst h
      rw [show mapRemove ((k', off) :: canonMap es (off + (compLine k' v').length)) k'
        = canonMap es (off + (compLine k' v').length) by simp [mapRemove]]
      rw [keysOfI_canonMap]
      rw [show eraseKey ((k', v') :: es) k' = es by simp [eraseKey]]
    · rw [show mapRemove ((k', off) :: canonMap es (off + (compLine k' v').length)) k
        = (k', off) :: mapRemove (canonMap es (off + (compLine k' v').length)) k by
        simp [mapRemove, h]]
      rw [keysOfI_cons, ih]
      rw [show eraseKey ((k', v') :: es) k = (k', v') :: eraseKey es k by
        simp [eraseKey, h], keysOf_cons]

/-! ## Entries stay well-formed -/

theorem mem_keysOf_upsert (es : Entries) (k v x : Str)
    (h : x ∈ keysOf (upsert es k v)) : x ∈ keysOf es ∨ x = k := by
  induction es with
  | nil =>
    rw [show upsert [] k v = [(k, v)] from rfl, keysOf_cons] at h
    rcases List.mem_cons.1 h with h | h
    · right; exact h
    · rw [keysOf_nil] at h; exact absurd h (List.not_mem_nil x)
  | cons e es ih =>
    obtain ⟨k', v'⟩ := e
    by_cases hk : k' = k
    · subst hk
      rw [show upsert ((k', v') :: es) k' v = (k', v) :: es by simp [upsert]] at h
      rw [keysOf_cons] at h
      rcases List.mem_cons.1 h with h | h
      · right; exact h
      · left; rw [keysOf_cons]; exact List.mem_cons_of_mem _ h
    · rw [show upsert ((k', v') :: es) k v = (k', v') :: upsert es k v by
        simp [upsert, hk]] at h
      rw [keysOf_cons] at h
      rcases List.mem_cons.1 h with h | h
      · left; rw [keysOf_cons]; exact List.mem_cons.2 (Or.inl h)
      · rcases ih h with h2 | h2
        · left; rw [keysOf_cons]; exact List.mem_cons_of_mem _ h2
        · right; exact h2

theorem nodup_upsert (es : Entries) (k v : Str) (h : EntriesOK es) :
    EntriesOK (upsert es k v) := by
  induction es with
  | nil =>
    show (keysOf (upsert [] k v)).Nodup
    rw [show upsert [] k v = [(k, v)] from rfl, keysOf_cons, keysOf_nil]
    simp
  | cons e es ih =>
    obtain ⟨k', v'⟩ := e
    have h1 := List.nodup_cons.1 (show (k' :: keysOf es).Nodup from h)
    by_cases hk : k' = k
    · subst hk
      show (keysOf (upsert ((k', v') :: es) k' v)).Nodup
      rw [show upsert ((k', v') :: es) k' v = (k', v) :: es by simp [upsert], keysOf_cons]
      exact List.nodup_cons.2 h1
    · show (keysOf (upsert ((k', v') :: es) k v)).Nodup
      rw [show upsert ((k', v') :: es) k v = (k', v') :: upsert es k v by
        simp [upsert, hk], keysOf_cons]
      refine List.nodup_cons.2 ⟨?_, ih h1.2⟩
      intro hmem
      rcases mem_keysOf_upsert es k v k' hmem with h2 | h2
      · exact h1.1 h2
      · exact hk h2

theorem mem_keysOf_erase (es : Entries) (k x : Str)
    (h : x ∈ keysOf (eraseKey es k)) : x ∈ keysOf es := by
  induction es with
  | nil =>
    rw [show eraseKey [] k = [] from rfl] at h
    exact h
  | cons e es ih =>
    obtain ⟨k', v'⟩ := e
    by_cases hk : k' = k
    · subst hk
      rw [show eraseKey ((k', v') :: es) k' = es by simp [eraseKey]] at h
      rw [keysOf_cons]
      exact List.mem_cons_of_mem _ h
    · rw [show eraseKey ((k', v') :: es) k = (k', v') :: eraseKey es k by
        simp [eraseKey, hk], keysOf_cons] at h
      rw [keysOf_cons]
      rcases List.mem_cons.1 h with h | h
      · exact List.mem_cons.2 (Or.inl h)
      · exact List.mem_cons_of_mem _ (ih h)

theorem nodup_erase (es : Entries) (k : Str) (h : EntriesOK es) :
    EntriesOK (eraseKey es k) := by
  induction es with
  | nil => exact h
  | cons e es ih =>
    obtain ⟨k', v'⟩ := e
    have h1 := List.nodup_cons.1 (show (k' :: keysOf es).Nodup from h)
    by_cases hk : k' = k
    · subst hk
      show (keysOf (eraseKey ((k', v') :: es) k')).Nodup
      rw [show eraseKey ((k', v') :: es) k' = es by simp [eraseKey]]
      exact h1.2
    · show (keysOf (eraseKey ((k', v') :: es) k)).Nodup
      rw [show eraseKey ((k', v') :: es) k = (k', v') :: eraseKey es k by
        simp [eraseKey, hk], keysOf_cons]
      exact List.nodup_cons.2 ⟨fun hmem => h1.1 (mem_keysOf_erase es k k' hmem), ih h1.2⟩

/-! ## The canonical-step theorems -/

theorem compact_log_state (log : Str) (m : Index) :
    compact_log { log := log, map := m } = { log := compactLogGo m log, map := m } := rfl

theorem create_map_state (log : Str) (m : Index) :
    create_map { log := log, map := m }
      = { log := log, map := replayLines (splitLines log) 0 m } := rfl

/-- `set` on a canonical state yields the canonical state of the updated
entries. -/
theorem set_canon (es : Entries) (k v : Str) (h : EntriesOK es) :
    set (canonState es) k v = canonState (upsert es k v) := by
  have h1 : set (canonState es) k v
      = create_map { log := compactLogGo (mapInsert (canonMap es 0) k (canonLog es).length) ((canonLog es ++ encWrite k v) ++ ['\n']), map := mapInsert (canonMap es 0) k (canonLog es).length } := rfl
  have hlog : compactLogGo (mapInsert (canonMap es 0) k (canonLog es).length)
      ((canonLog es ++ encWrite k v) ++ ['\n']) = canonLog (upsert es k v) := by
    have h0 : canonMap es 0 = canonMap es ([] : Str).length := rfl
    have hL : (canonLog es).length = (([] : Str) ++ canonLog es).length := by simp
    have hlog2 : (canonLog es ++ encWrite k v) ++ ['\n']
        = ([] : Str) ++ (canonLog es ++ (encWrite k v ++ ['\n'])) := by simp
    rw [h0, hL, hlog2]
    exact compact_upsert es [] k v
  rw [h1, hlog, create_map_state, splitLines_canonLog, replayLines_linesOf]
  have hkeys : keysOfI (mapInsert (canonMap es 0) k (canonLog es).length)
      = keysOf (upsert es k v) := keysOfI_mapInsert_canon es 0 _ k v
  have hins : insAll (upsert es k v) 0 (mapInsert (canonMap es 0) k (canonLog es).length)
      = canonMap (upsert es k v) 0 := by
    have h2 := insAll_exact (upsert es k v) 0 []
      (mapInsert (canonMap es 0) k (canonLog es).length) hkeys
      (by intro k' hk'; simp [keysOfI]) (nodup_upsert es k v h)
    simpa using h2
  rw [hins]
  rfl

/-- `write_record` of a `Remove` on a canonical state yields the canonical
state of the entries with the key erased. -/
theorem write_remove_canon (es : Entries) (k : Str) (h : EntriesOK es) :
    write_record (canonState es) (.remove k) = canonState (eraseKey es k) := by
  have h1 : write_record (canonState es) (.remove k)
      = create_map { log := compactLogGo (mapRemove (canonMap es 0) k) ((canonLog es ++ encRemove k) ++ ['\n']), map := mapRemove (canonMap es 0) k } := rfl
  have hlog : compactLogGo (mapRemove (canonMap es 0) k)
      ((canonLog es ++ encRemove k) ++ ['\n']) = canonLog (eraseKey es k) := by
    have h0 : canonMap es 0 = canonMap es ([] : Str).length := rfl
    have hlog2 : (canonLog es ++ encRemove k) ++ ['\n']
        = ([] : Str) ++ (canonLog es ++ (encRemove k ++ ['\n'])) := by simp
    rw [h0, hlog2]
    exact compact_erase es [] k _
  rw [h1, hlog, create_map_state, splitLines_canonLog, replayLines_linesOf]
  have hkeys := keysOfI_mapRemove_canon es 0 k
  have hins : insAll (eraseKey es k) 0 (mapRemove (canonMap es 0) k)
      = canonMap (eraseKey es k) 0 := by
    have h2 := insAll_exact (eraseKey es k) 0 [] (mapRemove (canonMap es 0) k) hkeys
      (by intro k' hk'; simp [keysOfI]) (nodup_erase es k h)
    simpa using h2
  rw [hins]
  rfl

/-- Opening a store over a compacted log reproduces the canonical state. -/
theorem open_canon (es : Entries) (h : EntriesOK es) :
    openStore (canonLog es) = canonState es := by
  show create_map { log := canonLog es, map := [] } = _
  rw [create_map_state, splitLines_canonLog, replayLines_linesOf]
  have hins : insAll es 0 [] = canonMap es 0 := by
    have h2 := insAll_fresh es 0 [] (by intro k' hk'; simp [keysOfI]) h
    simpa using h2
  rw [hins]
  rfl

/-- `get` on a canonical state is the logical lookup. -/
theorem get_canon (es : Entries) (k : Str) :
    get (canonState es) k = .ok (lookupE es k) := by
  have h := get_canon_general es [] [] k
  simpa [canonState] using h

/-- Every reachable state is canonical: a compacted log for some
well-formed entries, with the matching index. -/
theorem reachable_canon {s : KvState} (h : Reachable s) :
    ∃ es, EntriesOK es ∧ s = canonState es := by
  induction h with
  | openFresh => exact ⟨[], by simp [EntriesOK, keysOf], rfl⟩
  | step op hs ih =>
    obtain ⟨es, hok, rfl⟩ := ih
    cases op with
    | set k v =>
      exact ⟨upsert es k v, nodup_upsert es k v hok, set_canon es k v hok⟩
    | get k => exact ⟨es, hok, rfl⟩
    | rm k =>
      show ∃ es', EntriesOK es' ∧ (remove (canonState es) k).2 = canonState es'
      unfold remove
      rw [get_canon]
      cases hlk : lookupE es k with
      | some v =>
        exact ⟨eraseKey es k, nodup_erase es k hok, write_remove_canon es k hok⟩
      | none => exact ⟨es, hok, rfl⟩
  | reopen hs ih =>
    obtain ⟨es, hok, rfl⟩ := ih
    exact ⟨es, hok, open_canon es hok⟩

/-! ## Logical lookup after updates -/

theorem lookupE_not_mem (es : Entries) (k : Str) (h : k ∉ keysOf es) :
    lookupE es k = none := by
  induction es with
  | nil => rfl
  | cons e es ih =>
    obtain ⟨k', v'⟩ := e
    rw [keysOf_cons] at h
    have hk : k' ≠ k := fun hk => h (hk ▸ List.mem_cons_self k' _)
    rw [show lookupE ((k', v') :: es) k = lookupE es k by simp [lookupE, hk]]
    exact ih (fun hm => h (List.mem_cons_of_mem _ hm))

theorem lookupE_upsert_self (es : Entries) (k v : Str) :
    lookupE (upsert es k v) k = some v := by
  induction es with
  | nil => simp [upsert, lookupE]
  | cons e es ih =>
    obtain ⟨k', v'⟩ := e
    by_cases hk : k' = k
    · subst hk; simp [upsert, lookupE]
    · rw [show upsert ((k', v') :: es) k v = (k', v') :: upsert es k v by
        simp [upsert, hk]]
      rw [show lookupE ((k', v') :: upsert es k v) k = lookupE (upsert es k v) k by
        simp [lookupE, hk]]
      exact ih

theorem lookupE_upsert_ne (es : Entries) (k v k' : Str) (h : k ≠ k') :
    lookupE (upsert es k v) k' = lookupE es k' := by
  induction es with
  | nil => simp [upsert, lookupE, h]
  | cons e es ih =>
    obtain ⟨k2, v2⟩ := e
    by_cases hk : k2 = k
    · subst hk
      rw [show upsert ((k2, v2) :: es) k2 v = (k2, v) :: es by simp [upsert]]
      simp [lookupE, h]
    · rw [show upsert ((k2, v2) :: es) k v = (k2, v2) :: upsert es k v by
        simp [upsert, hk]]
      by_cases h2 : k2 = k'
      · simp [lookupE, h2]
      · simp [lookupE, h2, ih]

theorem lookupE_erase_self (es : Entries) (k : Str) (h : EntriesOK es) :
    lookupE (eraseKey es k) k = none := by
  induction es with
  | nil => rfl
  | cons e es ih =>
    obtain ⟨k', v'⟩ := e
    have h1 := List.nodup_cons.1 (show (k' :: keysOf es).Nodup from h)
    by_cases hk : k' = k
    · subst hk
      rw [show eraseKey ((k', v') :: es) k' = es by simp [eraseKey]]
      exact lookupE_not_mem es k' h1.1
    · rw [show eraseKey ((k', v') :: es) k = (k', v') :: eraseKey es k by
        simp [eraseKey, hk]]
      rw [show lookupE ((k', v') :: eraseKey es k) k = lookupE (eraseKey es k) k by
        simp [lookupE, hk]]
      exact ih h1.2

theorem lookupE_erase_ne (es : Entries) (k k' : Str) (h : k ≠ k') :
    lookupE (eraseKey es k) k' = lookupE es k' := by
  induction es with
  | nil => rfl
  | cons e es ih =>
    obtain ⟨k2, v2⟩ := e
    by_cases hk : k2 = k
    · subst hk
      rw [show eraseKey ((k2, v2) :: es) k2 = es by simp [eraseKey]]
      have h2 : k2 ≠ k' := h
      rw [show lookupE ((k2, v2) :: es) k' = lookupE es k' by simp [lookupE, h2]]
    · rw [show eraseKey ((k2, v2) :: es) k = (k2, v2) :: eraseKey es k by
        simp [eraseKey, hk]]
      by_cases h2 : k2 = k'
      · simp [lookupE, h2]
      · simp [lookupE, h2, ih]

theorem entryOff_isSome (es : Entries) (off : Nat) (k : Str) :
    (entryOff es off k).isSome = true ↔ k ∈ keysOf es := by
  induction es generalizing off with
  | nil => simp [entryOff, keysOf]
  | cons e es ih =>
    obtain ⟨k', v'⟩ := e
    rw [keysOf_cons]
    by_cases h : k' = k
    · subst h; simp [entryOff]
    · rw [show entryOff ((k', v') :: es) off k
        = entryOff es (off + (compLine k' v').length) k by simp [entryOff, h]]
      rw [ih]
      simp [List.mem_cons]
      intro h2
      exact absurd h2.symm h

/-! ## `get` on the state just before compaction

`write_record` updates the index, appends the record, and only then
triggers compaction.  These lemmas compute `get` on that intermediate
state: it already agrees with the logical content of the updated entries. -/

theorem get_of_lookup_none (s : KvState) (q : Str)
    (h : mapLookup s.map q = none) : get s q = .ok none := by
  unfold get
  simp only [h]

theorem get_of_write_line (s : KvState) (q : Str) (p : Nat) (k' v : Str)
    (hlk : mapLookup s.map q = some p)
    (hline : readLineAt s.log p = encWrite k' v ++ ['\n']) :
    get s q = .ok (some v) := by
  unfold get read_record
  simp only [hlk, hline, decode_encWrite]
  simp

theorem get_append_write (es : Entries) (k v q : Str) :
    get (appendRecord (canonState es) (.write k v)) q
      = .ok (lookupE (upsert es k v) q) := by
  by_cases hq : k = q
  · subst hq
    rw [lookupE_upsert_self]
    apply get_of_write_line _ _ (canonLog es).length k v
    · exact mapLookup_insert_self _ _ _
    · show readLineAt ((canonLog es ++ encWrite k v) ++ ['\n']) (canonLog es).length = _
      have hshape : (canonLog es ++ encWrite k v) ++ ['\n']
          = canonLog es ++ (encWrite k v ++ '\n' :: []) := by simp
      rw [hshape, readLineAt_canon_end]
  · rw [lookupE_upsert_ne es k v q hq]
    have hlk : mapLookup (appendRecord (canonState es) (.write k v)).map q
        = entryOff es 0 q := by
      show mapLookup (mapInsert (canonMap es 0) k (canonLog es).length) q = _
      rw [mapLookup_insert_ne _ _ _ _ hq,
        show canonMap es 0 = canonMap es ([] : Str).length from rfl, mapLookup_canonMap]
      rfl
    cases hoff : entryOff es 0 q with
    | none =>
      rw [entryOff_none es 0 q hoff]
      exact get_of_lookup_none _ _ (by rw [hlk, hoff])
    | some p =>
      have hoff' : entryOff es ([] : Str).length q = some p := hoff
      obtain ⟨v', hv', hr⟩ :=
        readLineAt_entryOff es [] (encWrite k v ++ ['\n']) q p hoff'
      rw [hv']
      apply get_of_write_line _ _ p q v' (by rw [hlk, hoff])
      show readLineAt ((canonLog es ++ encWrite k v) ++ ['\n']) p = _
      have hshape : (canonLog es ++ encWrite k v) ++ ['\n']
          = ([] : Str) ++ (canonLog es ++ (encWrite k v ++ ['\n'])) := by simp
      rw [hshape]
      exact hr

theorem get_append_remove (es : Entries) (k q : Str) (hok : EntriesOK es) :
    get (appendRecord (canonState es) (.remove k)) q
      = .ok (lookupE (eraseKey es k) q) := by
  have hnd : (keysOfI (canonMap es 0)).Nodup := by
    rw [keysOfI_canonMap]; exact hok
  by_cases hq : k = q
  · subst hq
    rw [lookupE_erase_self es k hok]
    exact get_of_lookup_none _ _ (mapLookup_remove_self _ _ hnd)
  · rw [lookupE_erase_ne es k q hq]
    have hlk : mapLookup (appendRecord (canonState es) (.remove k)).map q
        = entryOff es 0 q := by
      show mapLookup (mapRemove (canonMap es 0) k) q = _
      rw [mapLookup_remove_ne _ _ _ hq,
        show canonMap es 0 = canonMap es ([] : Str).length from rfl, mapLookup_canonMap]
      rfl
    cases hoff : entryOff es 0 q with
    | none =>
      rw [entryOff_none es 0 q hoff]
      exact get_of_lookup_none _ _ (by rw [hlk, hoff])
    | some p =>
      have hoff' : entryOff es ([] : Str).length q = some p := hoff
      obtain ⟨v', hv', hr⟩ :=
        readLineAt_entryOff es [] (encRemove k ++ ['\n']) q p hoff'
      rw [hv']
      apply get_of_write_line _ _ p q v' (by rw [hlk, hoff])
      show readLineAt ((canonLog es ++ encRemove k) ++ ['\n']) p = _
      have hshape : (canonLog es ++ encRemove k) ++ ['\n']
          = ([] : Str) ++ (canonLog es ++ (encRemove k ++ ['\n'])) := by simp
      rw [hshape]
      exact hr

/-! ## The log compaction produces, and its size -/

theorem compact_append_write (es : Entries) (k v : Str) :
    (compact_log (appendRecord (canonState es) (.write k v))).log
      = canonLog (upsert es k v) := by
  have h1 : (compact_log (appendRecord (canonState es) (.write k v))).log
      = compactLogGo (mapInsert (canonMap es 0) k (canonLog es).length)
          ((canonLog es ++ encWrite k v) ++ ['\n']) := rfl
  rw [h1]
  have h0 : canonMap es 0 = canonMap es ([] : Str).length := rfl
  have hL : (canonLog es).length = (([] : Str) ++ canonLog es).length := by simp
  have hlog2 : (canonLog es ++ encWrite k v) ++ ['\n']
      = ([] : Str) ++ (canonLog es ++ (encWrite k v ++ ['\n'])) := by simp
  rw [h0, hL, hlog2]
  exact compact_upsert es [] k v

theorem compact_append_remove (es : Entries) (k : Str) :
    (compact_log (appendRecord (canonState es) (.remove k))).log
      = canonLog (eraseKey es k) := by
  have h1 : (compact_log (appendRecord (canonState es) (.remove k))).log
      = compactLogGo (mapRemove (canonMap es 0) k)
          ((canonLog es ++ encRemove k) ++ ['\n']) := rfl
  rw [h1]
  have h0 : canonMap es 0 = canonMap es ([] : Str).length := rfl
  have hlog2 : (canonLog es ++ encRemove k) ++ ['\n']
      = ([] : Str) ++ (canonLog es ++ (encRemove k ++ ['\n'])) := by simp
  rw [h0, hlog2]
  exact compact_erase es [] k _

theorem canonLog_length_upsert_mem (es : Entries) (k v : Str) (h : k ∈ keysOf es) :
    (canonLog (upsert es k v)).length ≤ (canonLog es).length + (encWrite k v).length := by
  induction es with
  | nil => rw [keysOf_nil] at h; exact absurd h (List.not_mem_nil k)
  | cons e es ih =>
    obtain ⟨k', v'⟩ := e
    by_cases hk : k' = k
    · subst hk
      rw [show upsert ((k', v') :: es) k' v = (k', v) :: es by simp [upsert]]
      show (compLine k' v ++ canonLog es).length
        ≤ (compLine k' v' ++ canonLog es).length + (encWrite k' v).length
      simp [compLine]
      omega
    · rw [keysOf_cons] at h
      have hmem : k ∈ keysOf es := by
        rcases List.mem_cons.1 h with h2 | h2
        · exact absurd h2.symm hk
        · exact h2
      rw [show upsert ((k', v') :: es) k v = (k', v') :: upsert es k v by
        simp [upsert, hk]]
      show (compLine k' v' ++ canonLog (upsert es k v)).length
        ≤ (compLine k' v' ++ canonLog es).length + (encWrite k v).length
      have := ih hmem
      simp [List.length_append] at this ⊢
      omega

theorem canonLog_length_upsert_all (es : Entries) (k v : Str) :
    (canonLog (upsert es k v)).length ≤ (canonLog es).length + (compLine k v).length := by
  induction es with
  | nil =>
    show (compLine k v ++ canonLog []).length ≤ (canonLog []).length + (compLine k v).length
    simp [canonLog]
  | cons e es ih =>
    obtain ⟨k', v'⟩ := e
    by_cases hk : k' = k
    · subst hk
      rw [show upsert ((k', v') :: es) k' v = (k', v) :: es by simp [upsert]]
      show (compLine k' v ++ canonLog es).length
        ≤ (compLine k' v' ++ canonLog es).length + (compLine k' v).length
      simp [List.length_append]
      omega
    · rw [show upsert ((k', v') :: es) k v = (k', v') :: upsert es k v by
        simp [upsert, hk]]
      show (compLine k' v' ++ canonLog (upsert es k v)).length
        ≤ (compLine k' v' ++ canonLog es).length + (compLine k v).length
      have := ih
      simp [List.length_append] at this ⊢
      omega

theorem canonLog_length_erase (es : Entries) (k : Str) :
    (canonLog (eraseKey es k)).length ≤ (canonLog es).length := by
  induction es with
  | nil => exact Nat.le_refl _
  | cons e es ih =>
    obtain ⟨k', v'⟩ := e
    by_cases hk : k' = k
    · subst hk
      rw [show eraseKey ((k', v') :: es) k' = es by simp [eraseKey]]
      show (canonLog es).length ≤ (compLine k' v' ++ canonLog es).length
      simp [List.length_append]
    · rw [show eraseKey ((k', v') :: es) k = (k', v') :: eraseKey es k by
        simp [eraseKey, hk]]
      show (compLine k' v' ++ canonLog (eraseKey es k)).length
        ≤ (compLine k' v' ++ canonLog es).length
      simp [List.length_append]
      omega

/-! ## The decodable records of a log, with their offsets -/

/-- The `(offset, command)` pairs a full scan of the given line buffers
yields, skipping lines that do not decode. -/
def recordsOfLines : List Str → Nat → List (Nat × Command)
  | [], _ => []
  | l :: ls, pos =>
    match decodeCmd l with
    | some c => (pos, c) :: recordsOfLines ls (pos + l.length)
    | none => recordsOfLines ls (pos + l.length)

/-- All decodable records of a log, each with the offset it starts at. -/
def logRecords (log : Str) : List (Nat × Command) :=
  recordsOfLines (splitLines log) 0

/-- The records of a compacted log: one `Write` per entry, in order. -/
def canonRecords : Entries → Nat → List (Nat × Command)
  | [], _ => []
  | (k, v) :: es, off =>
    (off, .write k v) :: canonRecords es (off + (compLine k v).length)

theorem recordsOfLines_linesOf (es : Entries) (off : Nat) :
    recordsOfLines (linesOf es) off = canonRecords es off := by
  induction es generalizing off with
  | nil => rfl
  | cons e es ih =>
    obtain ⟨k, v⟩ := e
    show recordsOfLines ((encWrite k v ++ ['\n']) :: ['\n'] :: linesOf es) off = _
    simp only [recordsOfLines, decode_encWrite, decode_nl]
    rw [ih]
    show (off, Command.write k v) :: canonRecords es
        (off + (encWrite k v ++ ['\n']).length + (['\n'] : Str).length)
      = (off, Command.write k v) :: canonRecords es (off + (compLine k v).length)
    have harith : off + (encWrite k v ++ ['\n']).length + (['\n'] : Str).length
        = off + (compLine k v).length := by
      simp [compLine]
      omega
    rw [harith]

theorem logRecords_canonLog (es : Entries) :
    logRecords (canonLog es) = canonRecords es 0 := by
  unfold logRecords
  rw [splitLines_canonLog, recordsOfLines_linesOf]

theorem canonRecords_mem_write (es : Entries) (off : Nat) (q : Nat) (c : Command)
    (h : (q, c) ∈ canonRecords es off) :
    ∃ v, c = Command.write c.key v ∧ c.key ∈ keysOf es := by
  induction es generalizing off with
  | nil => simp [canonRecords] at h
  | cons e es ih =>
    obtain ⟨k, v⟩ := e
    rw [show canonRecords ((k, v) :: es) off
      = (off, Command.write k v) :: canonRecords es (off + (compLine k v).length)
      from rfl] at h
    rcases List.mem_cons.1 h with h | h
    · obtain ⟨h1, h2⟩ := Prod.mk.injEq .. ▸ h
      refine ⟨v, ?_, ?_⟩
      · rw [h2]; rfl
      · rw [h2, keysOf_cons]
        exact List.mem_cons_self _ _
    · obtain ⟨v', h1, h2⟩ := ih _ h
      exact ⟨v', h1, by rw [keysOf_cons]; exact List.mem_cons_of_mem _ h2⟩

theorem canonRecords_entryOff (es : Entries) (off : Nat) (k : Str) (p : Nat)
    (h : entryOff es off k = some p) :
    ∃ v, lookupE es k = some v ∧ (p, Command.write k v) ∈ canonRecords es off := by
  induction es generalizing off with
  | nil => simp [entryOff] at h
  | cons e es ih =>
    obtain ⟨k', v'⟩ := e
    by_cases hk : k' = k
    · subst hk
      simp [entryOff] at h
      subst h
      refine ⟨v', by simp [lookupE], ?_⟩
      rw [show canonRecords ((k', v') :: es) off
        = (off, Command.write k' v') :: canonRecords es (off + (compLine k' v').length)
        from rfl]
      exact List.mem_cons_self _ _
    · rw [show entryOff ((k', v') :: es) off k
        = entryOff es (off + (compLine k' v').length) k by simp [entryOff, hk]] at h
      obtain ⟨v, hv, hmem⟩ := ih _ h
      refine ⟨v, by simp [lookupE, hk, hv], ?_⟩
      rw [show canonRecords ((k', v') :: es) off
        = (off, Command.write k' v') :: canonRecords es (off + (compLine k' v').length)
        from rfl]
      exact List.mem_cons_of_mem _ hmem

theorem canonRecords_key_unique (es : Entries) (off : Nat) (k : Str) (p : Nat)
    (hnd : (keysOf es).Nodup) (h : entryOff es off k = some p) :
    ∀ q c, (q, c) ∈ canonRecords es off → c.key = k → q = p := by
  induction es generalizing off with
  | nil => simp [entryOff] at h
  | cons e es ih =>
    obtain ⟨k', v'⟩ := e
    intro q c hmem hkey
    have hnd' := List.nodup_cons.1 (show (k' :: keysOf es).Nodup from hnd)
    rw [show canonRecords ((k', v') :: es) off
      = (off, Command.write k' v') :: canonRecords es (off + (compLine k' v').length)
      from rfl] at hmem
    by_cases hk : k' = k
    · subst hk
      simp [entryOff] at h
      subst h
      rcases List.mem_cons.1 hmem with hm | hm
      · exact congrArg Prod.fst hm
      · obtain ⟨v2, hc, hkmem⟩ := canonRecords_mem_write es _ q c hm
        rw [hkey] at hkmem
        exact absurd hkmem hnd'.1
    · rw [show entryOff ((k', v') :: es) off k
        = entryOff es (off + (compLine k' v').length) k by simp [entryOff, hk]] at h
      rcases List.mem_cons.1 hmem with hm | hm
      · exfalso
        have hc : c = Command.write k' v' := congrArg Prod.snd hm
        rw [hc] at hkey
        exact hk hkey
      · exact ih _ hnd'.2 h q c hm hkey

/-! # The claims -/

/-- The compacted-log shape claim C1 asserts, following the spec's words:
the log is exactly one newline-terminated Write record per key currently
in the Index, in some (arbitrary) order, and nothing else — no extra
bytes. -/
def SpecCompactLog (s : KvState) : Prop :=
  ∃ es : Entries, (keysOf es).Nodup ∧
    (∀ k : Str, k ∈ keysOf es ↔ (mapLookup s.map k).isSome = true) ∧
    s.log = (es.map (fun e => encWrite e.1 e.2 ++ ['\n'])).flatten

/-- The shape the code actually leaves after compaction: one Write record
per Index key, each followed by its newline terminator plus one extra
blank line (`compact_log` pushes a second `'\n'` onto a buffer that
`read_line` already terminated). -/
def CompactedShape (s : KvState) : Prop :=
  ∃ es : Entries, (keysOf es).Nodup ∧
    (∀ k : Str, k ∈ keysOf es ↔ (mapLookup s.map k).isSome = true) ∧
    s.log = (es.map (fun e => encWrite e.1 e.2 ++ ['\n', '\n'])).flatten

theorem canonLog_join (es : Entries) :
    canonLog es = (es.map (fun e => encWrite e.1 e.2 ++ ['\n', '\n'])).flatten := by
  induction es with
  | nil => rfl
  | cons e es ih =>
    obtain ⟨k, v⟩ := e
    show compLine k v ++ canonLog es = _
    rw [List.map_cons, List.flatten_cons, ih]
    rfl

theorem canonState_compactedShape (es : Entries) (h : EntriesOK es) :
    CompactedShape (canonState es) := by
  refine ⟨es, h, ?_, ?_⟩
  · intro k
    show k ∈ keysOf es ↔ (mapLookup (canonMap es 0) k).isSome = true
    rw [show canonMap es 0 = canonMap es ([] : Str).length from rfl, mapLookup_canonMap]
    exact (entryOff_isSome es _ k).symm
  · show canonLog es = _
    exact canonLog_join es

theorem encWrite_getLast (k v : Str) : (encWrite k v).getLast? = some '\x7d' := by
  unfold encWrite
  rw [show litW ++ escape k ++ '"' :: litM ++ escape v ++ '"' :: '\x7d' :: []
    = (litW ++ escape k ++ '"' :: litM ++ escape v ++ ['"']) ++ ['\x7d'] by simp]
  exact List.getLast?_concat _

theorem nodup_mem_single (l : List Str) (a : Str)
    (hnd : l.Nodup) (hm : ∀ x, x ∈ l ↔ x = a) : l = [a] := by
  cases l with
  | nil => exact absurd ((hm a).2 rfl) (List.not_mem_nil a)
  | cons b l2 =>
    have hb : b = a := (hm b).1 (List.mem_cons_self b l2)
    subst hb
    cases l2 with
    | nil => rfl
    | cons c l3 =>
      have hc : c = b := (hm c).1 (List.mem_cons_of_mem _ (List.mem_cons_self c l3))
      have hd := (List.nodup_cons.1 hnd).1
      exact absurd (hc ▸ List.mem_cons_self c l3) hd

/-- C1, corrected: after every `set` (and after every successful `remove`,
both of which end in compaction), the log holds exactly one Write record
for each key in the Index and no Remove tombstones — but each record is
followed by one extra blank line, so the spec's "no other bytes" must be
weakened to "nothing else but one blank line after each record". -/
theorem C1_compacted_log_shape (s : KvState) (h : Reachable s) (k v : Str) :
    CompactedShape (set s k v) ∧
    ((remove s k).1 = .ok () → CompactedShape (remove s k).2) := by
  obtain ⟨es, hok, rfl⟩ := reachable_canon h
  constructor
  · rw [set_canon es k v hok]
    exact canonState_compactedShape _ (nodup_upsert es k v hok)
  · intro hsucc
    unfold remove at hsucc ⊢
    rw [get_canon] at hsucc ⊢
    cases hlk : lookupE es k with
    | none =>
      rw [hlk] at hsucc
      exact Except.noConfusion
        (show (Except.error KvError.keyNotFound : Except KvError Unit) = .ok () from hsucc)
    | some v' =>
      show CompactedShape (write_record (canonState es) (.remove k))
      rw [write_remove_canon es k hok]
      exact canonState_compactedShape _ (nodup_erase es k hok)

/-- Witness for `C1_compacted_log_shape` at a concrete store. -/
theorem C1_compacted_log_shape_witness :
    CompactedShape (set (openStore []) ['a'] ['1']) ∧
    ((remove (openStore []) ['a']).1 = .ok () →
      CompactedShape (remove (openStore []) ['a']).2) :=
  C1_compacted_log_shape (openStore []) Reachable.openFresh ['a'] ['1']

/-- C1 as literally stated is false: already after the very first `set`
the log contains one byte (a blank line) beyond the single Write record,
because `compact_log` appends `"\n"` to a buffer `read_line` already
terminated with `'\n'`. -/
theorem C1_counterexample :
    ¬ SpecCompactLog (runOp (openStore []) (Op.set ['a'] ['1'])) := by
  intro hcl
  have hstate : runOp (openStore []) (Op.set ['a'] ['1'])
      = canonState [(['a'], ['1'])] := by
    show set (openStore []) ['a'] ['1'] = _
    rw [show openStore [] = canonState [] from rfl]
    rw [set_canon [] ['a'] ['1'] List.Pairwise.nil]
    rfl
  rw [hstate] at hcl
  obtain ⟨es, hnd, hmem, hlog⟩ := hcl
  have hmem' : ∀ x : Str, x ∈ keysOf es ↔ x = ['a'] := by
    intro x
    rw [hmem x]
    show (mapLookup [((['a'] : Str), 0)] x).isSome = true ↔ x = ['a']
    by_cases hx : (['a'] : Str) = x
    · subst hx; simp [mapLookup]
    · rw [show mapLookup [((['a'] : Str), 0)] x = none by simp [mapLookup, hx]]
      constructor
      · intro h2; exact absurd h2 (by simp)
      · intro h2; exact absurd h2.symm hx
  have hkeys : keysOf es = [['a']] := nodup_mem_single _ _ hnd hmem'
  obtain ⟨v0, hes⟩ : ∃ v0, es = [(['a'], v0)] := by
    cases es with
    | nil => exact absurd hkeys (by simp [keysOf])
    | cons e es2 =>
      obtain ⟨k0, v0⟩ := e
      rw [keysOf_cons] at hkeys
      injection hkeys with h1 h2
      have hes2 : es2 = [] := by
        rwa [show keysOf es2 = es2.map Prod.fst from rfl, List.map_eq_nil_iff] at h2
      subst hes2
      subst h1
      exact ⟨v0, rfl⟩
  subst hes
  have hL : (canonState [((['a'] : Str), (['1'] : Str))]).log
      = encWrite ['a'] ['1'] ++ ['\n', '\n'] := by
    show compLine ['a'] ['1'] ++ [] = _
    simp [compLine]
  have hR : (([((['a'] : Str), v0)].map (fun e => encWrite e.1 e.2 ++ ['\n'])).flatten)
      = encWrite ['a'] v0 ++ ['\n'] := by simp
  rw [hL, hR] at hlog
  have hlog2 : (encWrite ['a'] ['1'] ++ ['\n']) ++ ['\n'] = encWrite ['a'] v0 ++ ['\n'] := by
    rw [← hlog]; simp
  have hcancel := List.append_cancel_right hlog2
  have h1 : (encWrite ['a'] ['1'] ++ ['\n']).getLast? = some '\n' := List.getLast?_concat _
  rw [hcancel, encWrite_getLast] at h1
  injection h1 with h2
  exact absurd h2 (by decide)

/-- C2, corrected: the key/value mapping observable via `get` is identical
immediately before the compaction a mutation triggers (the state
`appendRecord` leaves) and after it completes; the log never shrinks by
less than it appended when the mutation overwrote or removed an existing
key — but when the mutation adds a fresh key the compaction grows the log
by exactly one byte (the extra blank line), so "never grows" only holds
relative to the triggering mutation, not to the whole history. -/
theorem C2_compaction_preserves_gets (s : KvState) (h : Reachable s) (k v q : Str) :
    (get (appendRecord s (.write k v)) q = get (set s k v) q) ∧
    ((remove s k).1 = .ok () →
      get (appendRecord s (.remove k)) q = get ((remove s k).2) q) ∧
    (mapLookup s.map k ≠ none →
      (compact_log (appendRecord s (.write k v))).log.length
        ≤ (appendRecord s (.write k v)).log.length) ∧
    ((remove s k).1 = .ok () →
      (compact_log (appendRecord s (.remove k))).log.length
        ≤ (appendRecord s (.remove k)).log.length) ∧
    ((compact_log (appendRecord s (.write k v))).log.length
      ≤ (appendRecord s (.write k v)).log.length + 1) := by
  obtain ⟨es, hok, rfl⟩ := reachable_canon h
  refine ⟨?_, ?_, ?_, ?_, ?_⟩
  · rw [get_append_write, set_canon es k v hok, get_canon]
  · intro hsucc
    unfold remove at hsucc ⊢
    rw [get_canon] at hsucc ⊢
    cases hlk : lookupE es k with
    | none =>
      rw [hlk] at hsucc
      exact Except.noConfusion
        (show (Except.error KvError.keyNotFound : Except KvError Unit) = .ok () from hsucc)
    | some v' =>
      show get (appendRecord (canonState es) (.remove k)) q
        = get (write_record (canonState es) (.remove k)) q
      rw [get_append_remove es k q hok, write_remove_canon es k hok, get_canon]
  · intro hpresent
    have hmem : k ∈ keysOf es := by
      rw [← entryOff_isSome es ([] : Str).length k]
      have h2 : mapLookup (canonMap es ([] : Str).length) k ≠ none := hpresent
      rw [mapLookup_canonMap] at h2
      exact Option.isSome_iff_ne_none.2 h2
    have hlen := canonLog_length_upsert_mem es k v hmem
    rw [show (compact_log (appendRecord (canonState es) (.write k v))).log.length
      = (canonLog (upsert es k v)).length by rw [compact_append_write]]
    show _ ≤ ((canonLog es ++ encWrite k v) ++ ['\n']).length
    simp only [List.length_append, List.length_cons, List.length_nil] at hlen ⊢
    omega
  · intro hsucc
    rw [show (compact_log (appendRecord (canonState es) (.remove k))).log.length
      = (canonLog (eraseKey es k)).length by rw [compact_append_remove]]
    have hlen := canonLog_length_erase es k
    show _ ≤ ((canonLog es ++ encRemove k) ++ ['\n']).length
    simp only [List.length_append, List.length_cons, List.length_nil]
    omega
  · rw [show (compact_log (appendRecord (canonState es) (.write k v))).log.length
      = (canonLog (upsert es k v)).length by rw [compact_append_write]]
    have hlen := canonLog_length_upsert_all es k v
    show _ ≤ ((canonLog es ++ encWrite k v) ++ ['\n']).length + 1
    simp only [compLine, List.length_append, List.length_cons, List.length_nil] at hlen ⊢
    omega

/-- Witness for `C2_compaction_preserves_gets` at a concrete store with a
live key, so the overwrite and remove branches are exercised. -/
theorem C2_compaction_preserves_gets_witness :
    (get (appendRecord (runOp (openStore []) (Op.set ['a'] ['1'])) (.write ['a'] ['2'])) ['a']
      = get (set (runOp (openStore []) (Op.set ['a'] ['1'])) ['a'] ['2']) ['a']) ∧
    ((remove (runOp (openStore []) (Op.set ['a'] ['1'])) ['a']).1 = .ok () →
      get (appendRecord (runOp (openStore []) (Op.set ['a'] ['1'])) (.remove ['a'])) ['a']
        = get ((remove (runOp (openStore []) (Op.set ['a'] ['1'])) ['a']).2) ['a']) ∧
    (mapLookup (runOp (openStore []) (Op.set ['a'] ['1'])).map ['a'] ≠ none →
      (compact_log (appendRecord (runOp (openStore []) (Op.set ['a'] ['1'])) (.write ['a'] ['2']))).log.length
        ≤ (appendRecord (runOp (openStore []) (Op.set ['a'] ['1'])) (.write ['a'] ['2'])).log.length) ∧
    ((remove (runOp (openStore []) (Op.set ['a'] ['1'])) ['a']).1 = .ok () →
      (compact_log (appendRecord (runOp (openStore []) (Op.set ['a'] ['1'])) (.remove ['a']))).log.length
        ≤ (appendRecord (runOp (openStore []) (Op.set ['a'] ['1'])) (.remove ['a'])).log.length) ∧
    ((compact_log (appendRecord (runOp (openStore []) (Op.set ['a'] ['1'])) (.write ['a'] ['2']))).log.length
      ≤ (appendRecord (runOp (openStore []) (Op.set ['a'] ['1'])) (.write ['a'] ['2'])).log.length + 1) :=
  C2_compaction_preserves_gets (runOp (openStore []) (Op.set ['a'] ['1']))
    (Reachable.step (Op.set ['a'] ['1']) Reachable.openFresh) ['a'] ['2'] ['a']

/-- C2 as literally stated is false: in the run `set a 1; set a 2; set b 3`
the key `a` has been overwritten, yet the compaction triggered by
`set b 3` grows the log by one byte (the blank line after the fresh
record for `b`). -/
theorem C2_counterexample :
    (mapLookup (runOp (openStore []) (Op.set ['a'] ['1'])).map ['a']).isSome = true ∧
    (compact_log (appendRecord
        (runOp (runOp (openStore []) (Op.set ['a'] ['1'])) (Op.set ['a'] ['2']))
        (.write ['b'] ['3']))).log.length
      = (appendRecord
          (runOp (runOp (openStore []) (Op.set ['a'] ['1'])) (Op.set ['a'] ['2']))
          (.write ['b'] ['3'])).log.length + 1 := by
  decide

/-- C3 (confirmed): reopening a store over the log a reachable instance
left behind reproduces every `get` result. -/
theorem C3_persistence (s : KvState) (h : Reachable s) (k : Str) :
    get (openStore s.log) k = get s k := by
  obtain ⟨es, hok, rfl⟩ := reachable_canon h
  show get (openStore (canonLog es)) k = _
  rw [open_canon es hok]

/-- Witness for `C3_persistence`. -/
theorem C3_persistence_witness :
    get (openStore (runOp (openStore []) (Op.set ['a'] ['1'])).log) ['a']
      = get (runOp (openStore []) (Op.set ['a'] ['1'])) ['a'] :=
  C3_persistence (runOp (openStore []) (Op.set ['a'] ['1']))
    (Reachable.step (Op.set ['a'] ['1']) Reachable.openFresh) ['a']

/-- The index invariant of C4, packaged: the record at the stored offset
decodes to a Write of the same key, that offset is the latest (in fact the
only) record of the key, and any key whose record is a Remove tombstone is
absent from the index. -/
def IndexInvariant (s : KvState) (k : Str) (p : Nat) : Prop :=
  (∃ v, decodeCmd (readLineAt s.log p) = some (.write k v) ∧
    (p, Command.write k v) ∈ logRecords s.log ∧
    (∀ q c, (q, c) ∈ logRecords s.log → c.key = k → q ≤ p)) ∧
  (∀ q k2, (q, Command.remove k2) ∈ logRecords s.log → mapLookup s.map k2 = none)

/-- C4 (confirmed): in every reachable state, every index entry points at
the latest (unique) Write record of its key, and no key whose latest
record is a Remove has an entry (after compaction no Remove records exist
at all, so the tombstone clause holds vacuously but is provable). -/
theorem C4_index_invariant (s : KvState) (h : Reachable s) (k : Str) (p : Nat)
    (hlk : mapLookup s.map k = some p) : IndexInvariant s k p := by
  obtain ⟨es, hok, rfl⟩ := reachable_canon h
  have hlk' : entryOff es 0 k = some p := by
    have h2 : mapLookup (canonMap es ([] : Str).length) k = some p := hlk
    rwa [mapLookup_canonMap] at h2
  constructor
  · obtain ⟨v, hv, hr⟩ := readLineAt_entryOff es [] [] k p hlk'
    have hread : readLineAt (canonLog es) p = encWrite k v ++ ['\n'] := by
      rw [show canonLog es = ([] : Str) ++ (canonLog es ++ []) by simp]
      exact hr
    obtain ⟨v2, hv2, hmem⟩ := canonRecords_entryOff es 0 k p hlk'
    rw [hv] at hv2
    injection hv2 with hv3
    subst hv3
    refine ⟨v, ?_, ?_, ?_⟩
    · show decodeCmd (readLineAt (canonLog es) p) = _
      rw [hread, decode_encWrite]
    · show (p, Command.write k v) ∈ logRecords (canonLog es)
      rw [logRecords_canonLog]
      exact hmem
    · intro q c hqc hkey
      have hqc' : (q, c) ∈ canonRecords es 0 := by
        rw [show logRecords (canonState es).log = canonRecords es 0 from
          logRecords_canonLog es] at hqc
        exact hqc
      exact Nat.le_of_eq (canonRecords_key_unique es 0 k p hok hlk' q c hqc' hkey)
  · intro q k2 hm
    have hm' : (q, Command.remove k2) ∈ canonRecords es 0 := by
      rw [show logRecords (canonState es).log = canonRecords es 0 from
        logRecords_canonLog es] at hm
      exact hm
    obtain ⟨v2, hc, _⟩ := canonRecords_mem_write es 0 q _ hm'
    exact absurd hc (by intro hcc; cases hcc)

/-- Witness for `C4_index_invariant`. -/
theorem C4_index_invariant_witness :
    IndexInvariant (runOp (openStore []) (Op.set ['a'] ['1'])) ['a'] 0 :=
  C4_index_invariant (runOp (openStore []) (Op.set ['a'] ['1']))
    (Reachable.step (Op.set ['a'] ['1']) Reachable.openFresh) ['a'] 0 (by decide)

/-- C5 (confirmed): `set(k, v)` then `get(k)` returns `Ok(Some(v))`, for
arbitrary keys and values including empty strings and strings containing
newlines or quotes (the JSON codec escapes them). -/
theorem C5_set_then_get (s : KvState) (h : Reachable s) (k v : Str) :
    get (set s k v) k = .ok (some v) := by
  obtain ⟨es, hok, rfl⟩ := reachable_canon h
  rw [set_canon es k v hok, get_canon, lookupE_upsert_self]

/-- Witness for `C5_set_then_get`, exercising a value with a newline, a
quote and a backslash. -/
theorem C5_set_then_get_witness :
    get (set (openStore []) ['a'] ['x', '\n', '"', '\\']) ['a']
      = .ok (some ['x', '\n', '"', '\\']) :=
  C5_set_then_get (openStore []) Reachable.openFresh ['a'] ['x', '\n', '"', '\\']

/-- C6 (confirmed): the later `set` supersedes the earlier one. -/
theorem C6_overwrite (s : KvState) (h : Reachable s) (k v1 v2 : Str) :
    get (set (set s k v1) k v2) k = .ok (some v2) ∧
    (v1 ≠ v2 → get (set (set s k v1) k v2) k ≠ .ok (some v1)) := by
  obtain ⟨es, hok, rfl⟩ := reachable_canon h
  have hok1 := nodup_upsert es k v1 hok
  rw [set_canon es k v1 hok, set_canon _ k v2 hok1, get_canon, lookupE_upsert_self]
  refine ⟨rfl, fun hne hc => hne ?_⟩
  injection hc with hc2
  injection hc2 with hc3
  exact hc3.symm

/-- Witness for `C6_overwrite`. -/
theorem C6_overwrite_witness :
    get (set (set (openStore []) ['a'] ['1']) ['a'] ['2']) ['a'] = .ok (some ['2']) ∧
    ((['1'] : Str) ≠ ['2'] →
      get (set (set (openStore []) ['a'] ['1']) ['a'] ['2']) ['a'] ≠ .ok (some ['1'])) :=
  C6_overwrite (openStore []) Reachable.openFresh ['a'] ['1'] ['2']

/-- C7 (confirmed): a `Remove` hides every earlier Write for the key. -/
theorem C7_remove_then_get (s : KvState) (h : Reachable s) (k v : Str) :
    (remove (set s k v) k).1 = .ok () ∧
    get ((remove (set s k v) k).2) k = .ok none := by
  obtain ⟨es, hok, rfl⟩ := reachable_canon h
  rw [set_canon es k v hok]
  have hok1 := nodup_upsert es k v hok
  unfold remove
  rw [get_canon, lookupE_upsert_self]
  refine ⟨rfl, ?_⟩
  show get (write_record (canonState (upsert es k v)) (.remove k)) k = .ok none
  rw [write_remove_canon _ k hok1, get_canon, lookupE_erase_self _ k hok1]

/-- Witness for `C7_remove_then_get`. -/
theorem C7_remove_then_get_witness :
    (remove (set (openStore []) ['a'] ['1']) ['a']).1 = .ok () ∧
    get ((remove (set (openStore []) ['a'] ['1']) ['a']).2) ['a'] = .ok none :=
  C7_remove_then_get (openStore []) Reachable.openFresh ['a'] ['1']

/-- C8 (confirmed): `remove` of an absent key fails with `KeyNotFound`,
appends nothing, leaves the index untouched (the state is returned
unchanged), and later `get`s are unaffected. -/
theorem C8_remove_absent (s : KvState) (k : Str) (h : mapLookup s.map k = none) :
    (remove s k).1 = .error .keyNotFound ∧ (remove s k).2 = s ∧
    (∀ q, get ((remove s k).2) q = get s q) := by
  have hget : get s k = .ok none := get_of_lookup_none s k h
  unfold remove
  rw [hget]
  exact ⟨rfl, rfl, fun q => rfl⟩

/-- Witness for `C8_remove_absent`. -/
theorem C8_remove_absent_witness :
    (remove (openStore []) ['a']).1 = .error .keyNotFound ∧
    (remove (openStore []) ['a']).2 = openStore [] ∧
    (∀ q, get ((remove (openStore []) ['a']).2) q = get (openStore []) q) :=
  C8_remove_absent (openStore []) ['a'] (by decide)

/-- C9 (confirmed): a line that fails to decode during full-log replay is
skipped, leaving every `get` result intact (only the stored offsets
shift), whereas a decode failure at an offset taken from the index is
surfaced by `get` as an error rather than `None`. -/
theorem C9_decode_error_policy (b : Str) (es : Entries) (k : Str)
    (s : KvState) (k2 : Str) (p : Nat)
    (hb : '\n' ∉ b) (hbad : decodeCmd (b ++ ['\n']) = none) (hok : EntriesOK es)
    (hlk : mapLookup s.map k2 = some p)
    (hline : readLineAt s.log p ≠ [])
    (hdec : decodeCmd (readLineAt s.log p) = none) :
    get (openStore ((b ++ ['\n']) ++ canonLog es)) k
      = get (openStore (canonLog es)) k ∧
    get s k2 = .error .decodeError := by
  constructor
  · have hsplit : splitLines ((b ++ ['\n']) ++ canonLog es)
        = (b ++ ['\n']) :: splitLines (canonLog es) := by
      rw [show (b ++ ['\n']) ++ canonLog es = b ++ '\n' :: canonLog es by simp,
        splitLines_append b _ hb]
    have hopen : openStore ((b ++ ['\n']) ++ canonLog es)
        = { log := (b ++ ['\n']) ++ canonLog es,
            map := canonMap es (b ++ ['\n']).length } := by
      show create_map { log := (b ++ ['\n']) ++ canonLog es, map := [] } = _
      rw [create_map_state, hsplit]
      rw [show replayLines ((b ++ ['\n']) :: splitLines (canonLog es)) 0 []
        = replayLines (splitLines (canonLog es)) (0 + (b ++ ['\n']).length) [] by
        simp only [replayLines, hbad]]
      rw [splitLines_canonLog, replayLines_linesOf]
      rw [show (0 : Nat) + (b ++ ['\n']).length = (b ++ ['\n']).length by omega]
      rw [insAll_fresh es _ [] (by intro k' hk'; simp [keysOfI]) hok]
      simp
    rw [hopen]
    have hg := get_canon_general es (b ++ ['\n']) [] k
    rw [show (b ++ ['\n']) ++ (canonLog es ++ []) = (b ++ ['\n']) ++ canonLog es by simp]
      at hg
    rw [hg, open_canon es hok, get_canon]
  · unfold get read_record
    simp only [hlk, hdec]
    rw [if_neg (fun h0 => hline (List.length_eq_zero.1 h0))]

/-- Witness for `C9_decode_error_policy`: replay over a log starting with
the corrupt line `"x\n"` still serves key `a`, and a `get` through an
index entry pointing at the corrupt line `"z\n"` errors out. -/
theorem C9_decode_error_policy_witness :
    (get (openStore (((['x'] : Str) ++ ['\n']) ++ canonLog [(['a'], ['1'])])) ['a']
      = get (openStore (canonLog [(['a'], ['1'])])) ['a']) ∧
    get { log := ['z', '\n'], map := [(['a'], 0)] } ['a'] = .error .decodeError :=
  C9_decode_error_policy ['x'] [(['a'], ['1'])] ['a']
    { log := ['z', '\n'], map := [(['a'], 0)] } ['a'] 0
    (by decide) (by decide) (by show (keysOf [(['a'], ['1'])]).Nodup; decide)
    (by decide) (by decide) (by decide)

/-- C10 (confirmed): `get` is read-only — it leaves the log and index (the
whole observable state) unchanged, two consecutive `get`s agree, and a
`get` never affects a later operation. -/
theorem C10_get_readonly (s : KvState) (k : Str) (op : Op) :
    runOp s (.get k) = s ∧
    (runOp s (.get k)).log = s.log ∧
    (runOp s (.get k)).map = s.map ∧
    get (runOp s (.get k)) k = get s k ∧
    runOp (runOp s (.get k)) op = runOp s op :=
  ⟨rfl, rfl, rfl, rfl, rfl⟩

end Kvs
